import Mathlib

open List

/-!
Verification of `loanpayoff.py` (function `analyze_loan_payoff_strategy`).

The python code builds a pandas DataFrame from a list of loan dicts, derives
per-loan columns (`monthly_interest`, `interest_principal_ratio`,
`avalanche_score`, `snowball_score`, `balanced_score`), sorts the frame three
times (descending, NaN placed last, ties in input order), and computes a
summary (column sums and first-occurrence arg-extrema).

Modelling choices, documented here once:
* a float64 cell is modelled as `PFloat`: an exact rational, `+inf`, `-inf`
  or NaN.  The arithmetic cases that the program can actually reach
  (products, quotients and sums of rationals, division by zero, `log 0`,
  `0 * inf`) are exact in IEEE double arithmetic up to rounding of the
  rational part; we model the rational part exactly.
* `np.round(x, 2)` is modelled as exact round-half-to-even at two decimals
  on the rational value.
* `balanced_score = rate * np.log(principal)` is modelled symbolically: a
  finite score is the pair `(r, p)` standing for the real `r * ln p` with
  `p > 0`; comparison of two finite scores is the exact (decidable)
  comparison `p ^ (r.num * s.den) ≤ q ^ (s.num * r.den)` of rationals, which
  is proved below to coincide with the real comparison of `r * ln p` and
  `s * ln q`.
* `DataFrame.sort_values(col, ascending=False)` is modelled after pandas'
  `nargsort` with `na_position='last'`: the non-NaN rows sorted descending
  on the key, the NaN rows appended afterwards in input order.  The source
  uses the default `kind='quicksort'` (numpy introsort), which pandas does
  not document as stable, so the relative order of tied non-NaN keys is not
  guaranteed by the source; the model determinizes it by keeping tied keys
  in input order (a stable sort).  None of the theorems below depends on
  this choice of tie order.
* a dict missing a key gives a NaN cell; a column exists iff at least one
  record carries the key; accessing a missing column raises `KeyError`, and
  `idxmax`/`idxmin` on an all-NaN column raises `ValueError`.  Errors are
  modelled with `Except`, raised in the evaluation order of the source.
-/

/-- Model of one float64 cell of the DataFrame: an exact rational,
one of the two infinities, or NaN. -/
inductive PFloat where
  | nan
  | negInf
  | fin (q : ℚ)
  | posInf
deriving DecidableEq, Repr

/-- NaN test (`pandas.isna`) for a cell. -/
def pfIsNA : PFloat → Bool
  | .nan => true
  | _ => false

/-- Finiteness test (`np.isfinite`) for a cell. -/
def pfIsFinite : PFloat → Bool
  | .fin _ => true
  | _ => false

/-- IEEE multiplication on cells (signs of infinities, `0 * inf = NaN`,
NaN propagates). -/
def pfMul : PFloat → PFloat → PFloat
  | .nan, _ => .nan
  | _, .nan => .nan
  | .fin a, .fin b => .fin (a * b)
  | .fin a, .posInf => if 0 < a then .posInf else if a < 0 then .negInf else .nan
  | .fin a, .negInf => if 0 < a then .negInf else if a < 0 then .posInf else .nan
  | .posInf, .fin b => if 0 < b then .posInf else if b < 0 then .negInf else .nan
  | .negInf, .fin b => if 0 < b then .negInf else if b < 0 then .posInf else .nan
  | .posInf, .posInf => .posInf
  | .posInf, .negInf => .negInf
  | .negInf, .posInf => .negInf
  | .negInf, .negInf => .posInf

/-- IEEE division on cells: division of a nonzero finite by zero gives a
signed infinity, `0/0 = NaN`, `inf/inf = NaN`, NaN propagates. -/
def pfDiv : PFloat → PFloat → PFloat
  | .nan, _ => .nan
  | _, .nan => .nan
  | .fin a, .fin b =>
      if b = 0 then (if 0 < a then .posInf else if a < 0 then .negInf else .nan)
      else .fin (a / b)
  | .fin _, .posInf => .fin 0
  | .fin _, .negInf => .fin 0
  | .posInf, .fin b => if b < 0 then .negInf else .posInf
  | .negInf, .fin b => if b < 0 then .posInf else .negInf
  | .posInf, .posInf => .nan
  | .posInf, .negInf => .nan
  | .negInf, .posInf => .nan
  | .negInf, .negInf => .nan

/-- IEEE addition on cells (used by the column sums). -/
def pfAdd : PFloat → PFloat → PFloat
  | .nan, _ => .nan
  | _, .nan => .nan
  | .fin a, .fin b => .fin (a + b)
  | .fin _, .posInf => .posInf
  | .posInf, .fin _ => .posInf
  | .fin _, .negInf => .negInf
  | .negInf, .fin _ => .negInf
  | .posInf, .posInf => .posInf
  | .negInf, .negInf => .negInf
  | .posInf, .negInf => .nan
  | .negInf, .posInf => .nan

/-- IEEE negation on cells. -/
def pfNeg : PFloat → PFloat
  | .nan => .nan
  | .negInf => .posInf
  | .posInf => .negInf
  | .fin q => .fin (-q)

/-- Round a rational to the nearest integer, halves to the even integer
(the rounding rule of `np.round`). -/
def roundHalfEvenZ (q : ℚ) : ℤ :=
  let f := ⌊q⌋
  let r := q - (f : ℚ)
  if r < 1/2 then f
  else if 1/2 < r then f + 1
  else if f % 2 = 0 then f else f + 1

/-- Round a rational to two decimal places, halves to even
(model of `np.round(x, 2)`). -/
def round2q (q : ℚ) : ℚ := (roundHalfEvenZ (q * 100) : ℚ) / 100

/-- Cell-level `.round(2)`: rounds a finite value, fixes NaN and the
infinities. -/
def pfRound2 : PFloat → PFloat
  | .fin q => .fin (round2q q)
  | x => x

/-- Total Boolean order on cells used by the sort model: NaN is placed at
the bottom (NaN rows are segregated before sorting, so this choice never
reaches the sort), then `-inf`, then the rationals, then `+inf`. -/
def pfLe : PFloat → PFloat → Bool
  | .nan, _ => true
  | _, .nan => false
  | .negInf, _ => true
  | _, .negInf => false
  | .fin a, .fin b => decide (a ≤ b)
  | .fin _, .posInf => true
  | .posInf, .fin _ => false
  | .posInf, .posInf => true

/-- Strict version of `pfLe` (the comparison used by `idxmax`/`idxmin`). -/
def pfLt (a b : PFloat) : Bool := pfLe a b && !(pfLe b a)

/-- Two cells carry the same value for sorting purposes. -/
def pfEqv (a b : PFloat) : Prop := pfLe a b = true ∧ pfLe b a = true

/-- Model of a `balanced_score` cell, i.e. of `rate * np.log(principal)`:
NaN, `-inf`, `+inf`, or the finite real `r * ln p` represented symbolically
by the rational pair `(r, p)` with `p > 0`. -/
inductive BScore where
  | nan
  | negInf
  | fin (r : ℚ) (p : {x : ℚ // 0 < x})
  | posInf
deriving DecidableEq

/-- NaN test for a `balanced_score` cell. -/
def bsIsNA : BScore → Bool
  | .nan => true
  | _ => false

/-- Finiteness test for a `balanced_score` cell. -/
def bsIsFinite : BScore → Bool
  | .fin _ _ => true
  | _ => false

/-- Decidable comparison of the finite scores `r * ln p` and `s * ln q`:
clearing the rational denominators and exponentiating, it is equivalent to
`p ^ (r.num * s.den) ≤ q ^ (s.num * r.den)` over the positive rationals
(proved below against `Real.log`). -/
def finLe (r : ℚ) (p : {x : ℚ // 0 < x}) (s : ℚ) (q : {x : ℚ // 0 < x}) : Bool :=
  decide (p.1 ^ (r.num * (s.den : ℤ)) ≤ q.1 ^ (s.num * (r.den : ℤ)))

/-- Total Boolean order on `balanced_score` cells: NaN at the bottom (NaN
rows are segregated before sorting), then `-inf`, the finite scores ordered
by their real value, then `+inf`. -/
def bsLe : BScore → BScore → Bool
  | .nan, _ => true
  | _, .nan => false
  | .negInf, _ => true
  | _, .negInf => false
  | .fin r p, .fin s q => finLe r p s q
  | .fin _ _, .posInf => true
  | .posInf, .fin _ _ => false
  | .posInf, .posInf => true

/-- Two `balanced_score` cells carry the same value for sorting purposes. -/
def bsEqv (a b : BScore) : Prop := bsLe a b = true ∧ bsLe b a = true

/-- An input record, modelling one python dict of the input list: each of
the four keys may be absent. -/
structure RawLoan where
  name : Option String
  principal : Option ℚ
  rate : Option ℚ
  min_payment : Option ℚ
deriving DecidableEq, Repr

/-- A well-formed loan record carrying all four fields, as described by the
data model of the specification. -/
structure Loan where
  name : String
  principal : ℚ
  rate : ℚ
  min_payment : ℚ
deriving DecidableEq, Repr

/-- View a well-formed loan as an input record with every key present. -/
def Loan.toRaw (l : Loan) : RawLoan :=
  { name := some l.name, principal := some l.principal,
    rate := some l.rate, min_payment := some l.min_payment }

/-- A missing numeric key becomes a NaN cell in the DataFrame. -/
def toCell : Option ℚ → PFloat
  | none => .nan
  | some q => .fin q

/-- One row of the DataFrame after the derived columns of lines 21-29 of
`loanpayoff.py` have been added.  `idx` is the row's position in the input
(the DataFrame index), which `sort_values` carries along. -/
structure Row where
  idx : Nat
  name : Option String
  principal : PFloat
  rate : PFloat
  min_payment : PFloat
  monthly_interest : PFloat
  interest_principal_ratio : PFloat
  avalanche_score : PFloat
  snowball_score : PFloat
  balanced_score : BScore
deriving DecidableEq

/-- Model of `rate * np.log(principal)` (line 29 of `loanpayoff.py`):
`np.log` of a positive rational is the symbolic `ln p`, `np.log 0 = -inf`,
`np.log` of a negative number is NaN, and the product follows IEEE rules
(`0 * inf = NaN`, NaN propagates, signs multiply). -/
def balancedScore (rate principal : PFloat) : BScore :=
  match rate, principal with
  | .nan, _ => .nan
  | _, .nan => .nan
  | rate, .fin p =>
      if hp : 0 < p then
        match rate with
        | .fin r => .fin r ⟨p, hp⟩
        | .posInf => if 1 < p then .posInf else if p < 1 then .negInf else .nan
        | .negInf => if 1 < p then .negInf else if p < 1 then .posInf else .nan
        | .nan => .nan
      else if p = 0 then
        match rate with
        | .fin r => if 0 < r then .negInf else if r < 0 then .posInf else .nan
        | .posInf => .negInf
        | .negInf => .posInf
        | .nan => .nan
      else .nan
  | rate, .posInf =>
      match rate with
      | .fin r => if 0 < r then .posInf else if r < 0 then .negInf else .nan
      | .posInf => .posInf
      | .negInf => .negInf
      | .nan => .nan
  | _, .negInf => .nan

/-- Computation of the derived columns of one row (lines 21-29 of
`loanpayoff.py`): `monthly_interest = (principal * (rate/100) / 12).round(2)`,
`interest_principal_ratio = (rate/100) / principal`,
`avalanche_score = rate`, `snowball_score = -principal`,
`balanced_score = rate * np.log(principal)`.  The column operations of the
source are elementwise, so the row computation only reads its own record. -/
def computeRow (i : Nat) (l : RawLoan) : Row :=
  let principal := toCell l.principal
  let rate := toCell l.rate
  { idx := i
    name := l.name
    principal := principal
    rate := rate
    min_payment := toCell l.min_payment
    monthly_interest := pfRound2 (pfDiv (pfMul principal (pfDiv rate (.fin 100))) (.fin 12))
    interest_principal_ratio := pfDiv (pfDiv rate (.fin 100)) principal
    avalanche_score := rate
    snowball_score := pfNeg principal
    balanced_score := balancedScore rate principal }

/-- Rows of the DataFrame starting at index `i`. -/
def mkRowsFrom (i : Nat) : List RawLoan → List Row
  | [] => []
  | l :: ls => computeRow i l :: mkRowsFrom (i + 1) ls

/-- Model of `pd.DataFrame(loans)` together with the derived-column
assignments: the rows of the frame, indexed from 0 in input order. -/
def mkRows (loans : List RawLoan) : List Row := mkRowsFrom 0 loans

/-- Insert into a sorted list, keeping the inserted element before the
first element it compares `le` to: the insertion step of a stable sort. -/
def insertLe {α : Type} (le : α → α → Bool) (a : α) : List α → List α
  | [] => [a]
  | b :: l => if le a b then a :: b :: l else b :: insertLe le a l

/-- Stable insertion sort by the Boolean comparison `le`. -/
def isort {α : Type} (le : α → α → Bool) : List α → List α
  | [] => []
  | x :: xs => insertLe le x (isort le xs)

/-- Model of `df.sort_values(col, ascending=False)` (lines 33-35 of
`loanpayoff.py`): pandas segregates the NaN rows of the key column, sorts
the remaining rows on the key (descending here) and appends the NaN rows
at the end in input order (`na_position='last'`).  The order of tied
non-NaN keys is not guaranteed by the source's default `kind='quicksort'`;
the model determinizes it to input order, and no theorem below depends on
that tie order. -/
def pandasSortDesc {κ : Type} (isNA : κ → Bool) (le : κ → κ → Bool)
    (key : Row → κ) (rows : List Row) : List Row :=
  isort (fun a b => le (key b) (key a)) (rows.filter fun r => !isNA (key r)) ++
    rows.filter fun r => isNA (key r)

/-- Errors the source can raise: a missing-column `KeyError` from a frame
lookup, or the `ValueError` of `idxmax`/`idxmin` on an all-NaN column. -/
inductive PdError where
  | keyError (col : String)
  | valueError (msg : String)
deriving DecidableEq, Repr

/-- Scan for the first row strictly better than everything before it:
`gt cand cur` tells whether the candidate strictly beats the current
best; NaN cells are skipped (`skipna=True`). -/
def argFirstGo (gt : PFloat → PFloat → Bool) (key : Row → PFloat)
    (best : Row) : List Row → Row
  | [] => best
  | r :: rs =>
      if pfIsNA (key r) then argFirstGo gt key best rs
      else if gt (key r) (key best) then argFirstGo gt key r rs
      else argFirstGo gt key best rs

/-- First row achieving the extremum of the key among the non-NaN rows, or
`none` when every key cell is NaN. -/
def argFirst (gt : PFloat → PFloat → Bool) (key : Row → PFloat) :
    List Row → Option Row
  | [] => none
  | r :: rs =>
      if pfIsNA (key r) then argFirst gt key rs
      else some (argFirstGo gt key r rs)

/-- Model of `df[col].idxmax()` (with the row returned in place of its
index): first occurrence of the maximum, NaN skipped, `ValueError` when
there is no non-NaN cell. -/
def idxmaxBy (key : Row → PFloat) (rows : List Row) : Except PdError Row :=
  match argFirst (fun cand cur => pfLt cur cand) key rows with
  | none => .error (.valueError "attempt to get argmax of an empty sequence")
  | some r => .ok r

/-- Model of `df[col].idxmin()`: first occurrence of the minimum, NaN
skipped, `ValueError` when there is no non-NaN cell. -/
def idxminBy (key : Row → PFloat) (rows : List Row) : Except PdError Row :=
  match argFirst (fun cand cur => pfLt cand cur) key rows with
  | none => .error (.valueError "attempt to get argmin of an empty sequence")
  | some r => .ok r

/-- Model of `df.loc[i, 'name']` (lines 47-49): `KeyError` when no input
record carries the `name` key (so the column does not exist), otherwise the
`name` cell of the row, NaN (`none`) when that record lacks the key. -/
def getName (loans : List RawLoan) (r : Row) : Except PdError (Option String) :=
  if loans.any fun l => l.name.isSome then .ok r.name
  else .error (.keyError "name")

/-- Sum of a float column with `skipna=True` (model of `Series.sum()`,
lines 39-40): NaN cells are dropped, the rest are added. -/
def colSum : List PFloat → PFloat
  | [] => .fin 0
  | x :: xs => if pfIsNA x then colSum xs else pfAdd x (colSum xs)

/-- The `summary` dict of the analysis (lines 42-50 of `loanpayoff.py`). -/
structure Summary where
  total_debt : PFloat
  total_monthly_interest : PFloat
  highest_interest_loan : Option String
  smallest_balance_loan : Option String
  most_expensive_loan : Option String
deriving DecidableEq

/-- The analysis result (the `strategies` dict of line 32 flattened into
its three entries, plus the summary). -/
structure Report where
  avalanche_method : List Row
  snowball_method : List Row
  balanced_method : List Row
  summary : Summary
deriving DecidableEq

/-- Computation of the summary dict, with the fallible lookups performed in
the evaluation order of lines 47-49 of the source: `rate` idxmax, `name`
lookup, `principal` idxmin, `name` lookup, `monthly_interest` idxmax,
`name` lookup. -/
def summaryOf (loans : List RawLoan) (rows : List Row) : Except PdError Summary :=
  match idxmaxBy (fun r => r.rate) rows with
  | .error e => .error e
  | .ok hi =>
    match getName loans hi with
    | .error e => .error e
    | .ok hiName =>
      match idxminBy (fun r => r.principal) rows with
      | .error e => .error e
      | .ok sm =>
        match getName loans sm with
        | .error e => .error e
        | .ok smName =>
          match idxmaxBy (fun r => r.monthly_interest) rows with
          | .error e => .error e
          | .ok ex =>
            match getName loans ex with
            | .error e => .error e
            | .ok exName =>
              .ok { total_debt := colSum (rows.map fun r => r.principal)
                    total_monthly_interest :=
                      colSum (rows.map fun r => r.monthly_interest)
                    highest_interest_loan := hiName
                    smallest_balance_loan := smName
                    most_expensive_loan := exName }

/-- Model of `analyze_loan_payoff_strategy` (lines 4-53 of
`loanpayoff.py`).  Line 21 accesses `df['principal']` and then `df['rate']`,
so a missing `principal` column raises first, then a missing `rate`
column; on an empty input the frame has no columns at all and the same
`KeyError 'principal'` is raised.  Then the derived columns are computed
rowwise, the three rankings are produced by descending stable sorts on the
three score columns, and the summary is computed. -/
def analyze (loans : List RawLoan) : Except PdError Report :=
  if !(loans.any fun l => l.principal.isSome) then .error (.keyError "principal")
  else if !(loans.any fun l => l.rate.isSome) then .error (.keyError "rate")
  else
    let rows := mkRows loans
    match summaryOf loans rows with
    | .error e => .error e
    | .ok s =>
        .ok { avalanche_method :=
                pandasSortDesc pfIsNA pfLe (fun r => r.avalanche_score) rows
              snowball_method :=
                pandasSortDesc pfIsNA pfLe (fun r => r.snowball_score) rows
              balanced_method :=
                pandasSortDesc bsIsNA bsLe (fun r => r.balanced_score) rows
              summary := s }

/-- Position of the row of input index `k` in a ranking. -/
def posOf (k : Nat) (l : List Row) : Nat := l.findIdx fun r => r.idx == k

/-- Evaluate a Boolean property of the report of a successful analysis;
`false` when the analysis raised. -/
def onOk (x : Except PdError Report) (p : Report → Bool) : Bool :=
  match x with
  | .ok r => p r
  | .error _ => false

/-- The exact monthly interest formula of line 21 before rounding, on a
well-formed loan. -/
def monthlyQ (l : Loan) : ℚ := round2q (l.principal * (l.rate / 100) / 12)

/-- Totality of the cell order. -/
theorem pf_le_total (a b : PFloat) : pfLe a b = true ∨ pfLe b a = true := by
  cases a <;> cases b <;> simp [pfLe] <;> exact le_total _ _

/-- Transitivity of the cell order. -/
theorem pf_le_trans {a b c : PFloat} (h1 : pfLe a b = true) (h2 : pfLe b c = true) :
    pfLe a c = true := by
  cases a <;> cases b <;> cases c <;> simp_all [pfLe] <;> exact le_trans h1 h2

/-- With totality, the strict comparison is the negation of the reversed
comparison. -/
theorem pf_lt_eq_not_le (a b : PFloat) : pfLt a b = !(pfLe b a) := by
  rcases pf_le_total a b with h | h <;> rcases hba : pfLe b a <;>
    simp_all [pfLt]

/-- The cell order restricted to finite cells is the rational order. -/
theorem pf_le_fin_iff (a b : ℚ) : pfLe (.fin a) (.fin b) = true ↔ a ≤ b := by
  simp [pfLe]

/-- Two finite cells are order-equivalent exactly when they are the same
rational. -/
theorem pf_eqv_fin_iff (a b : ℚ) : pfEqv (.fin a) (.fin b) ↔ a = b := by
  unfold pfEqv
  simp only [pfLe, decide_eq_true_eq]
  exact ⟨fun h => le_antisymm h.1 h.2, fun h => ⟨le_of_eq h, ge_of_eq h⟩⟩

/-- The decidable comparison of two finite balanced scores agrees with the
comparison of the reals `r * ln p` and `s * ln q` they stand for. -/
theorem fin_le_iff (r s : ℚ) (p q : {x : ℚ // 0 < x}) :
    finLe r p s q = true ↔
      (r : ℝ) * Real.log (p.1 : ℝ) ≤ (s : ℝ) * Real.log (q.1 : ℝ) := by
  have hp : (0 : ℝ) < (p.1 : ℝ) := by exact_mod_cast p.2
  have hq : (0 : ℝ) < (q.1 : ℝ) := by exact_mod_cast q.2
  rw [finLe, decide_eq_true_iff]
  have h1 : p.1 ^ (r.num * (s.den : ℤ)) ≤ q.1 ^ (s.num * (r.den : ℤ)) ↔
      (p.1 : ℝ) ^ (r.num * (s.den : ℤ)) ≤ (q.1 : ℝ) ^ (s.num * (r.den : ℤ)) := by
    constructor
    · intro h
      exact_mod_cast h
    · intro h
      exact_mod_cast h
  have h2 : (p.1 : ℝ) ^ (r.num * (s.den : ℤ)) ≤ (q.1 : ℝ) ^ (s.num * (r.den : ℤ)) ↔
      Real.log ((p.1 : ℝ) ^ (r.num * (s.den : ℤ))) ≤
        Real.log ((q.1 : ℝ) ^ (s.num * (r.den : ℤ))) :=
    (Real.log_le_log_iff (zpow_pos hp _) (zpow_pos hq _)).symm
  rw [h1, h2, Real.log_zpow, Real.log_zpow]
  have hrnum : ((r.num : ℝ)) = (r : ℝ) * (r.den : ℝ) := by rw [Rat.cast_def]; field_simp
  have hsnum : ((s.num : ℝ)) = (s : ℝ) * (s.den : ℝ) := by rw [Rat.cast_def]; field_simp
  have hc : (0 : ℝ) < (r.den : ℝ) * (s.den : ℝ) := by positivity
  push_cast
  rw [hrnum, hsnum,
    show ((r : ℝ) * (r.den : ℝ) * (s.den : ℝ)) * Real.log (p.1 : ℝ) =
      ((r : ℝ) * Real.log (p.1 : ℝ)) * ((r.den : ℝ) * (s.den : ℝ)) by ring,
    show ((s : ℝ) * (s.den : ℝ) * (r.den : ℝ)) * Real.log (q.1 : ℝ) =
      ((s : ℝ) * Real.log (q.1 : ℝ)) * ((r.den : ℝ) * (s.den : ℝ)) by ring]
  exact mul_le_mul_right hc

/-- Totality of the balanced-score order. -/
theorem bs_le_total (a b : BScore) : bsLe a b = true ∨ bsLe b a = true := by
  cases a <;> cases b <;> simp [bsLe] <;>
    · rw [fin_le_iff, fin_le_iff]
      exact le_total _ _

/-- Transitivity of the balanced-score order. -/
theorem bs_le_trans {a b c : BScore} (h1 : bsLe a b = true) (h2 : bsLe b c = true) :
    bsLe a c = true := by
  cases a <;> cases b <;> cases c <;> simp_all [bsLe]
  rw [fin_le_iff] at *
  exact le_trans h1 h2

/-- Two finite balanced scores are order-equivalent exactly when the reals
they stand for are equal. -/
theorem bs_eqv_fin_iff (r s : ℚ) (p q : {x : ℚ // 0 < x}) :
    bsEqv (.fin r p) (.fin s q) ↔
      (r : ℝ) * Real.log (p.1 : ℝ) = (s : ℝ) * Real.log (q.1 : ℝ) := by
  unfold bsEqv
  simp only [bsLe]
  rw [fin_le_iff, fin_le_iff]
  exact ⟨fun h => le_antisymm h.1 h.2, fun h => ⟨le_of_eq h, ge_of_eq h⟩⟩

/-- Inserting permutes to consing. -/
theorem insertLe_perm {α : Type} (le : α → α → Bool) (a : α) :
    ∀ l : List α, insertLe le a l ~ a :: l
  | [] => List.Perm.refl _
  | b :: t => by
    rw [insertLe]
    by_cases h : le a b = true
    · simp [h]
    · simp only [if_neg h]
      exact ((insertLe_perm le a t).cons b).trans (List.Perm.swap a b t)

/-- The sort permutes its input. -/
theorem isort_perm {α : Type} (le : α → α → Bool) : ∀ l : List α, isort le l ~ l
  | [] => List.Perm.refl _
  | x :: xs => (insertLe_perm le x (isort le xs)).trans ((isort_perm le xs).cons x)

/-- Inserting into a sorted list keeps it sorted, for a total transitive
Boolean comparison. -/
theorem insertLe_pairwise {α : Type} (le : α → α → Bool)
    (total : ∀ a b, le a b = true ∨ le b a = true)
    (htrans : ∀ {a b c}, le a b = true → le b c = true → le a c = true)
    (a : α) : ∀ {l : List α}, l.Pairwise (fun x y => le x y = true) →
      (insertLe le a l).Pairwise (fun x y => le x y = true) := by
  intro l hl
  induction l with
  | nil => simp [insertLe]
  | cons b t ih =>
    rw [insertLe]
    by_cases h : le a b = true
    · simp only [if_pos h]
      refine List.Pairwise.cons ?_ hl
      intro y hy
      rcases List.mem_cons.mp hy with rfl | hyt
      · exact h
      · exact htrans h (List.rel_of_pairwise_cons hl hyt)
    · have hba : le b a = true := (total a b).resolve_left h
      simp only [if_neg h]
      refine List.Pairwise.cons ?_ (ih (List.Pairwise.of_cons hl))
      intro y hy
      rcases List.mem_cons.mp ((insertLe_perm le a t).mem_iff.mp hy) with rfl | hyt
      · exact hba
      · exact List.rel_of_pairwise_cons hl hyt

/-- The sort sorts, for a total transitive Boolean comparison. -/
theorem isort_pairwise {α : Type} (le : α → α → Bool)
    (total : ∀ a b, le a b = true ∨ le b a = true)
    (htrans : ∀ {a b c}, le a b = true → le b c = true → le a c = true) :
    ∀ l : List α, (isort le l).Pairwise (fun x y => le x y = true)
  | [] => List.Pairwise.nil
  | x :: xs => insertLe_pairwise le total htrans x (isort_pairwise le total htrans xs)

/-- A list is a sublist of any insertion into it. -/
theorem sublist_insertLe {α : Type} (le : α → α → Bool) (a : α) :
    ∀ l : List α, l <+ insertLe le a l
  | [] => List.nil_sublist _
  | b :: t => by
    rw [insertLe]
    by_cases h : le a b = true
    · simp only [if_pos h]
      exact List.sublist_cons_self a (b :: t)
    · simp only [if_neg h]
      exact (sublist_insertLe le a t).cons₂ b

/-- Stability of the insertion step: inserting `a` before the first element
it compares `le` to lands it before every member it compares `le` to. -/
theorem pair_sublist_insertLe {α : Type} (le : α → α → Bool) {a b : α}
    (hab : le a b = true) : ∀ {l : List α}, b ∈ l → [a, b] <+ insertLe le a l := by
  intro l
  induction l with
  | nil => intro h; cases h
  | cons c t ih =>
    intro hb
    rw [insertLe]
    by_cases h : le a c = true
    · simp only [if_pos h]
      exact List.Sublist.cons₂ a (List.singleton_sublist.mpr hb)
    · simp only [if_neg h]
      rcases List.mem_cons.mp hb with rfl | hbt
      · exact absurd hab h
      · exact (ih hbt).cons c

/-- Stability of the sort: a pair in input order whose left member compares
`le` to the right member stays in that order. -/
theorem pair_sublist_isort {α : Type} (le : α → α → Bool) {a b : α}
    (hab : le a b = true) : ∀ {l : List α}, [a, b] <+ l → [a, b] <+ isort le l := by
  intro l
  induction l with
  | nil => intro h; cases (List.eq_nil_of_sublist_nil h)
  | cons c t ih =>
    intro h
    rw [isort]
    cases h with
    | cons _ h2 => exact (ih h2).trans (sublist_insertLe le c (isort le t))
    | cons₂ _ h2 =>
      exact pair_sublist_insertLe le hab
        ((isort_perm le t).symm.subset (List.singleton_sublist.mp h2))

/-- Recover a pair sublist from two positions in order. -/
theorem pair_sublist_of_getElem {α : Type} :
    ∀ (l : List α) (i j : Nat) (a b : α), i < j →
      l[i]? = some a → l[j]? = some b → [a, b] <+ l
  | [], i, j, a, b, hij, ha, hb => by simp at ha
  | c :: t, 0, j, a, b, hij, ha, hb => by
    obtain ⟨j', rfl⟩ : ∃ j', j = j' + 1 := ⟨j - 1, by omega⟩
    simp only [List.getElem?_cons_zero, Option.some.injEq] at ha
    simp only [List.getElem?_cons_succ] at hb
    subst ha
    exact List.Sublist.cons₂ c (List.singleton_sublist.mpr (List.mem_iff_getElem?.mpr ⟨_, hb⟩))
  | c :: t, i + 1, j, a, b, hij, ha, hb => by
    obtain ⟨j', rfl⟩ : ∃ j', j = j' + 1 := ⟨j - 1, by omega⟩
    simp only [List.getElem?_cons_succ] at ha hb
    exact (pair_sublist_of_getElem t i j' a b (by omega) ha hb).cons c

/-- Extract ordered positions from a pair sublist. -/
theorem getElem_of_pair_sublist {α : Type} {a b : α} :
    ∀ {l : List α}, [a, b] <+ l →
      ∃ n m : Nat, n < m ∧ l[n]? = some a ∧ l[m]? = some b := by
  intro l
  induction l with
  | nil => intro h; cases (List.eq_nil_of_sublist_nil h)
  | cons c t ih =>
    intro h
    cases h with
    | cons _ h2 =>
      obtain ⟨n, m, hnm, ha, hb⟩ := ih h2
      exact ⟨n + 1, m + 1, by omega, by simpa using ha, by simpa using hb⟩
    | cons₂ _ h2 =>
      obtain ⟨m, hm⟩ := List.getElem?_of_mem (List.singleton_sublist.mp h2)
      exact ⟨0, m + 1, by omega, by simp, by simpa using hm⟩

/-- In a list whose `idx` projections are distinct, `posOf` of the element
at a position is that position. -/
theorem posOf_getElem : ∀ {l : List Row} {n : Nat} {a : Row},
    (l.map fun r => r.idx).Nodup → l[n]? = some a → posOf a.idx l = n := by
  intro l
  induction l with
  | nil => intro n a _ h; simp at h
  | cons c t ih =>
    intro n a hnd h
    match n with
    | 0 =>
      simp only [List.getElem?_cons_zero, Option.some.injEq] at h
      subst h
      simp [posOf, List.findIdx_cons]
    | n' + 1 =>
      simp only [List.getElem?_cons_succ] at h
      have hmem : a ∈ t := List.mem_iff_getElem?.mpr ⟨_, h⟩
      simp only [List.map_cons, List.nodup_cons] at hnd
      have hne : (c.idx == a.idx) = false := by
        apply Bool.eq_false_iff.mpr
        intro hcontra
        exact hnd.1 (by
          rw [Nat.beq_eq_true_eq] at hcontra
          rw [hcontra]
          exact List.mem_map_of_mem (fun r => r.idx) hmem)
      have := ih hnd.2 h
      simp only [posOf] at this ⊢
      rw [List.findIdx_cons, hne]
      simpa using this

/-- A pair sublist of a list with distinct `idx` projections yields ordered
`posOf` positions. -/
theorem posOf_lt_posOf {l : List Row} {a b : Row}
    (hnd : (l.map fun r => r.idx).Nodup) (h : [a, b] <+ l) :
    posOf a.idx l < posOf b.idx l := by
  obtain ⟨n, m, hnm, ha, hb⟩ := getElem_of_pair_sublist h
  rw [posOf_getElem hnd ha, posOf_getElem hnd hb]
  exact hnm

/-- The rows of the frame, elementwise. -/
theorem mkRowsFrom_getElem (i : Nat) :
    ∀ (ls : List RawLoan) (j : Nat),
      (mkRowsFrom i ls)[j]? = ls[j]?.map fun l => computeRow (i + j) l
  | [], j => by simp [mkRowsFrom]
  | l :: ls, 0 => by simp [mkRowsFrom]
  | l :: ls, j + 1 => by
    simp only [mkRowsFrom, List.getElem?_cons_succ]
    rw [mkRowsFrom_getElem (i + 1) ls j]
    have h : i + 1 + j = i + (j + 1) := by omega
    rw [h]

/-- The rows of the frame, elementwise, from index 0. -/
theorem mkRows_getElem (loans : List RawLoan) (j : Nat) :
    (mkRows loans)[j]? = loans[j]?.map fun l => computeRow j l := by
  have h := mkRowsFrom_getElem 0 loans j
  simpa [mkRows] using h

/-- The index column of the frame is `i, i+1, ...`. -/
theorem mkRowsFrom_map_idx (i : Nat) :
    ∀ ls : List RawLoan, (mkRowsFrom i ls).map (fun r => r.idx) = List.range' i ls.length
  | [] => rfl
  | l :: ls => by
    simp only [mkRowsFrom, List.map_cons, List.length_cons, List.range'_succ]
    rw [mkRowsFrom_map_idx (i + 1) ls]
    rfl

/-- The index column of the frame has no duplicates. -/
theorem mkRows_nodup_idx (loans : List RawLoan) :
    ((mkRows loans).map fun r => r.idx).Nodup := by
  rw [mkRows, mkRowsFrom_map_idx]
  exact List.nodup_range' 0 loans.length

/-- Every row of the frame is the row computation of its own input record:
the column operations of lines 21-29 are elementwise. -/
theorem mem_mkRows {r : Row} {loans : List RawLoan} (h : r ∈ mkRows loans) :
    ∃ j l, loans[j]? = some l ∧ r = computeRow j l := by
  obtain ⟨n, hn⟩ := List.getElem?_of_mem h
  rw [mkRows_getElem] at hn
  cases hl : loans[n]? with
  | none => rw [hl] at hn; simp at hn
  | some l =>
    rw [hl] at hn
    simp only [Option.map_some', Option.some.injEq] at hn
    exact ⟨n, l, hl, hn.symm⟩

/-- Finite-by-finite cell division with nonzero divisor. -/
theorem pfDiv_fin_fin {a b : ℚ} (hb : b ≠ 0) :
    pfDiv (.fin a) (.fin b) = .fin (a / b) := by
  simp [pfDiv, hb]

/-- The row computed from a well-formed loan, with every derived column
spelled out. -/
theorem computeRow_toRaw (i : Nat) (l : Loan) :
    computeRow i l.toRaw =
      { idx := i, name := some l.name, principal := .fin l.principal,
        rate := .fin l.rate, min_payment := .fin l.min_payment,
        monthly_interest := .fin (monthlyQ l),
        interest_principal_ratio := pfDiv (.fin (l.rate / 100)) (.fin l.principal),
        avalanche_score := .fin l.rate,
        snowball_score := .fin (-l.principal),
        balanced_score := balancedScore (.fin l.rate) (.fin l.principal) } := by
  have h100 : (100 : ℚ) ≠ 0 := by norm_num
  have h12 : (12 : ℚ) ≠ 0 := by norm_num
  simp [computeRow, Loan.toRaw, toCell, pfRound2, pfDiv_fin_fin, h100, h12,
    monthlyQ, pfMul, pfNeg]

/-- The ranking returned by the sort model is a permutation of the rows. -/
theorem pandasSortDesc_perm {κ : Type} (isNA : κ → Bool) (le : κ → κ → Bool)
    (key : Row → κ) (rows : List Row) :
    pandasSortDesc isNA le key rows ~ rows := by
  unfold pandasSortDesc
  refine ((isort_perm _ _).append (List.Perm.refl _)).trans ?_
  have h := List.filter_append_perm (fun r => !isNA (key r)) rows
  simpa [Bool.not_not] using h

/-- The index column of a ranking has no duplicates. -/
theorem pandasSortDesc_nodup_idx {κ : Type} (isNA : κ → Bool) (le : κ → κ → Bool)
    (key : Row → κ) (loans : List RawLoan) :
    ((pandasSortDesc isNA le key (mkRows loans)).map fun r => r.idx).Nodup := by
  have h := (pandasSortDesc_perm isNA le key (mkRows loans)).map fun r => r.idx
  exact h.nodup_iff.mpr (mkRows_nodup_idx loans)

/-- Order shape of a ranking: for any two rows in ranking order, either the
later one has a NaN key (NaN rows are all at the end), or both keys are
non-NaN and they are in descending key order. -/
theorem pandasSortDesc_pairwise {κ : Type} (isNA : κ → Bool) (le : κ → κ → Bool)
    (total : ∀ a b, le a b = true ∨ le b a = true)
    (htrans : ∀ {a b c}, le a b = true → le b c = true → le a c = true)
    (key : Row → κ) (rows : List Row) :
    (pandasSortDesc isNA le key rows).Pairwise (fun a b =>
      isNA (key b) = true ∨
        (isNA (key a) = false ∧ isNA (key b) = false ∧ le (key b) (key a) = true)) := by
  unfold pandasSortDesc
  rw [List.pairwise_append]
  refine ⟨?_, ?_, ?_⟩
  · have hs := isort_pairwise (fun a b => le (key b) (key a))
      (fun a b => total (key b) (key a))
      (fun hab hbc => htrans hbc hab)
      (rows.filter fun r => !isNA (key r))
    refine hs.imp_of_mem ?_
    intro a b ha hb hab
    have hbm := (isort_perm _ _).subset hb
    have ham := (isort_perm _ _).subset ha
    have hbna := List.of_mem_filter hbm
    have hana := List.of_mem_filter ham
    simp only [Bool.not_eq_true'] at hbna hana
    exact Or.inr ⟨hana, hbna, hab⟩
  · refine List.pairwise_of_forall_mem_list ?_
    intro a _ b hb
    have hbn : isNA (key b) = true := by simpa using List.of_mem_filter hb
    exact Or.inl hbn
  · intro a _ b hb
    have hbn : isNA (key b) = true := by simpa using List.of_mem_filter hb
    exact Or.inl hbn

/-- Stability of the sort model: a pair of rows in input order stays in
that order when both keys are non-NaN and the later key compares `le` to
the earlier one, and also when both keys are NaN. -/
theorem pandasSortDesc_pair {κ : Type} (isNA : κ → Bool) (le : κ → κ → Bool)
    (key : Row → κ) {rows : List Row} {a b : Row} (hab : [a, b] <+ rows)
    (h : (isNA (key a) = false ∧ isNA (key b) = false ∧ le (key b) (key a) = true) ∨
      (isNA (key a) = true ∧ isNA (key b) = true)) :
    [a, b] <+ pandasSortDesc isNA le key rows := by
  unfold pandasSortDesc
  rcases h with ⟨hana, hbna, hle⟩ | ⟨hana, hbna⟩
  · have hf : [a, b] <+ rows.filter fun r => !isNA (key r) := by
      have h1 := hab.filter (fun r => !isNA (key r))
      rwa [List.filter_cons_of_pos (by simp [hana]),
        List.filter_cons_of_pos (by simp [hbna]), List.filter_nil] at h1
    exact (pair_sublist_isort (fun x y => le (key y) (key x)) hle hf).trans
      (List.sublist_append_left _ _)
  · have hf : [a, b] <+ rows.filter fun r => isNA (key r) := by
      have h1 := hab.filter (fun r => isNA (key r))
      rwa [List.filter_cons_of_pos (by simp [hana]),
        List.filter_cons_of_pos (by simp [hbna]), List.filter_nil] at h1
    exact hf.trans (List.sublist_append_right _ _)

/-- Summing a column of finite cells. -/
theorem colSum_fin : ∀ xs : List ℚ, colSum (xs.map fun q => PFloat.fin q) = .fin xs.sum
  | [] => rfl
  | x :: xs => by
    simp only [List.map_cons, colSum, pfIsNA, colSum_fin xs, List.sum_cons]
    rfl

/-- Invariant of the scan underlying `idxmax`/`idxmin` over a run of
non-NaN keys: the scan result beats the seed and every scanned row, and it
is either the seed itself or the first scanned row that strictly beats the
seed and everything before it.  `le` is the non-strict order for which
`gt x y` means `x` strictly beats `y`. -/
theorem argFirstGo_spec (gt : PFloat → PFloat → Bool) (le : PFloat → PFloat → Bool)
    (total : ∀ a b, le a b = true ∨ le b a = true)
    (htrans : ∀ {a b c}, le a b = true → le b c = true → le a c = true)
    (hgt : ∀ x y, gt x y = !(le x y))
    (key : Row → PFloat) :
    ∀ (rs : List Row) (best : Row), (∀ r ∈ rs, pfIsNA (key r) = false) →
      le (key best) (key (argFirstGo gt key best rs)) = true ∧
      (∀ r ∈ rs, le (key r) (key (argFirstGo gt key best rs)) = true) ∧
      (argFirstGo gt key best rs = best ∨
        ∃ (n : Nat) (r' : Row), rs[n]? = some r' ∧ argFirstGo gt key best rs = r' ∧
          le (key r') (key best) = false ∧
          ∀ (m : Nat) (r'' : Row), m < n → rs[m]? = some r'' →
            le (key r') (key r'') = false)
  | [], best, _ => by
    refine ⟨?_, by simp, Or.inl rfl⟩
    rcases total (key best) (key best) with h | h <;> simpa [argFirstGo] using h
  | r :: rs, best, hna => by
    have hrna : pfIsNA (key r) = false := hna r (List.mem_cons_self r rs)
    have hna2 : ∀ x ∈ rs, pfIsNA (key x) = false :=
      fun x hx => hna x (List.mem_cons_of_mem r hx)
    rw [argFirstGo, if_neg (by simp [hrna])]
    by_cases hg : gt (key r) (key best) = true
    · rw [if_pos hg]
      have hrb : le (key r) (key best) = false := by
        have h := hgt (key r) (key best)
        rw [hg] at h
        simpa using h.symm
      have hbr : le (key best) (key r) = true := (total _ _).resolve_left (by simp [hrb])
      obtain ⟨h1, h2, h3⟩ := argFirstGo_spec gt le total htrans hgt key rs r hna2
      refine ⟨htrans hbr h1, ?_, ?_⟩
      · intro x hx
        rcases List.mem_cons.mp hx with rfl | hx
        · exact h1
        · exact h2 x hx
      · rcases h3 with heq | ⟨n, r', hn, hres, hlt, hbefore⟩
        · refine Or.inr ⟨0, r, by simp, heq, ?_, ?_⟩
          · exact hrb
          · intro m r'' hm hr''
            omega
        · refine Or.inr ⟨n + 1, r', by simpa using hn, hres, ?_, ?_⟩
          · rcases hb : le (key r') (key best) with _ | _
            · rfl
            · exact absurd (htrans hb hbr) (by simp [hlt])
          · intro m r'' hm hr''
            match m with
            | 0 =>
              simp only [List.getElem?_cons_zero, Option.some.injEq] at hr''
              subst hr''
              exact hres ▸ hlt
            | m' + 1 =>
              simp only [List.getElem?_cons_succ] at hr''
              exact hbefore m' r'' (by omega) hr''
    · rw [if_neg hg]
      have hrb : le (key r) (key best) = true := by
        have h := hgt (key r) (key best)
        rcases hc : le (key r) (key best) with _ | _
        · rw [hc] at h
          simp at h
          exact absurd h hg
        · rfl
      obtain ⟨h1, h2, h3⟩ := argFirstGo_spec gt le total htrans hgt key rs best hna2
      refine ⟨h1, ?_, ?_⟩
      · intro x hx
        rcases List.mem_cons.mp hx with rfl | hx
        · exact htrans hrb h1
        · exact h2 x hx
      · rcases h3 with heq | ⟨n, r', hn, hres, hlt, hbefore⟩
        · exact Or.inl heq
        · refine Or.inr ⟨n + 1, r', by simpa using hn, hres, hlt, ?_⟩
          intro m r'' hm hr''
          match m with
          | 0 =>
            simp only [List.getElem?_cons_zero, Option.some.injEq] at hr''
            subst hr''
            rcases hc : le (key r') (key r) with _ | _
            · rfl
            · exact absurd (htrans hc hrb) (by simp [hlt])
          | m' + 1 =>
            simp only [List.getElem?_cons_succ] at hr''
            exact hbefore m' r'' (by omega) hr''

/-- Characterization of the `idxmax`/`idxmin` scan on a non-empty list of
rows with non-NaN keys: it returns the first row achieving the extremum. -/
theorem argFirst_spec (gt : PFloat → PFloat → Bool) (le : PFloat → PFloat → Bool)
    (total : ∀ a b, le a b = true ∨ le b a = true)
    (htrans : ∀ {a b c}, le a b = true → le b c = true → le a c = true)
    (hgt : ∀ x y, gt x y = !(le x y))
    (key : Row → PFloat) (rows : List Row) (hne : rows ≠ [])
    (hna : ∀ r ∈ rows, pfIsNA (key r) = false) :
    ∃ (res : Row) (n : Nat), argFirst gt key rows = some res ∧ rows[n]? = some res ∧
      (∀ r ∈ rows, le (key r) (key res) = true) ∧
      (∀ (m : Nat) (r'' : Row), m < n → rows[m]? = some r'' →
        le (key res) (key r'') = false) := by
  match rows with
  | [] => exact absurd rfl hne
  | r :: rs =>
    have hrna : pfIsNA (key r) = false := hna r (List.mem_cons_self r rs)
    have hna2 : ∀ x ∈ rs, pfIsNA (key x) = false :=
      fun x hx => hna x (List.mem_cons_of_mem r hx)
    obtain ⟨h1, h2, h3⟩ := argFirstGo_spec gt le total htrans hgt key rs r hna2
    rw [argFirst, if_neg (by simp [hrna])]
    rcases h3 with heq | ⟨n, r', hn, hres, hlt, hbefore⟩
    · refine ⟨argFirstGo gt key r rs, 0, rfl, by simp [heq], ?_, ?_⟩
      · intro x hx
        rcases List.mem_cons.mp hx with rfl | hx
        · exact h1
        · exact h2 x hx
      · intro m r'' hm hr''
        omega
    · refine ⟨argFirstGo gt key r rs, n + 1, rfl, by simpa [hres] using hn, ?_, ?_⟩
      · intro x hx
        rcases List.mem_cons.mp hx with rfl | hx
        · exact h1
        · exact h2 x hx
      · intro m r'' hm hr''
        match m with
        | 0 =>
          simp only [List.getElem?_cons_zero, Option.some.injEq] at hr''
          subst hr''
          exact hres ▸ hlt
        | m' + 1 =>
          simp only [List.getElem?_cons_succ] at hr''
          exact hres ▸ hbefore m' r'' (by omega) hr''

/-- The frame has one row per input record. -/
theorem mkRowsFrom_length (i : Nat) :
    ∀ ls : List RawLoan, (mkRowsFrom i ls).length = ls.length
  | [] => rfl
  | _ :: ls => by simp [mkRowsFrom, mkRowsFrom_length (i + 1) ls]

/-- A row of the frame of well-formed loans comes from its own loan. -/
theorem mem_mkRows_toRaw {r : Row} {loans : List Loan}
    (h : r ∈ mkRows (loans.map Loan.toRaw)) :
    ∃ (j : Nat) (l : Loan), loans[j]? = some l ∧ r = computeRow j l.toRaw := by
  obtain ⟨j, l', hj, hr⟩ := mem_mkRows h
  rw [List.getElem?_map] at hj
  cases hl : loans[j]? with
  | none => rw [hl] at hj; simp at hj
  | some l =>
    rw [hl] at hj
    simp only [Option.map_some', Option.some.injEq] at hj
    exact ⟨j, l, hl, by rw [hr, ← hj]⟩

/-- Elementwise view of the frame of well-formed loans. -/
theorem mkRows_toRaw_getElem (loans : List Loan) (j : Nat) :
    (mkRows (loans.map Loan.toRaw))[j]? =
      loans[j]?.map fun l => computeRow j l.toRaw := by
  rw [mkRows_getElem, List.getElem?_map, Option.map_map]
  rfl

/-- The principal column of the frame of well-formed loans. -/
theorem mkRowsFrom_toRaw_map_principal (i : Nat) :
    ∀ loans : List Loan,
      (mkRowsFrom i (loans.map Loan.toRaw)).map (fun r => r.principal) =
        loans.map fun l => PFloat.fin l.principal
  | [] => rfl
  | l :: ls => by
    simp only [List.map_cons, mkRowsFrom, List.map_cons]
    rw [computeRow_toRaw, mkRowsFrom_toRaw_map_principal (i + 1) ls]

/-- The rounded monthly-interest column of the frame of well-formed loans. -/
theorem mkRowsFrom_toRaw_map_monthly (i : Nat) :
    ∀ loans : List Loan,
      (mkRowsFrom i (loans.map Loan.toRaw)).map (fun r => r.monthly_interest) =
        loans.map fun l => PFloat.fin (monthlyQ l)
  | [] => rfl
  | l :: ls => by
    simp only [List.map_cons, mkRowsFrom, List.map_cons]
    rw [computeRow_toRaw, mkRowsFrom_toRaw_map_monthly (i + 1) ls]

/-- On well-formed loans every `rate` cell is non-NaN. -/
theorem mkRows_toRaw_rate_not_na {loans : List Loan} :
    ∀ r ∈ mkRows (loans.map Loan.toRaw), pfIsNA r.rate = false := by
  intro r hr
  obtain ⟨j, l, _, rfl⟩ := mem_mkRows_toRaw hr
  rw [computeRow_toRaw]
  rfl

/-- On well-formed loans every `principal` cell is non-NaN. -/
theorem mkRows_toRaw_principal_not_na {loans : List Loan} :
    ∀ r ∈ mkRows (loans.map Loan.toRaw), pfIsNA r.principal = false := by
  intro r hr
  obtain ⟨j, l, _, rfl⟩ := mem_mkRows_toRaw hr
  rw [computeRow_toRaw]
  rfl

/-- On well-formed loans every `monthly_interest` cell is non-NaN. -/
theorem mkRows_toRaw_monthly_not_na {loans : List Loan} :
    ∀ r ∈ mkRows (loans.map Loan.toRaw), pfIsNA r.monthly_interest = false := by
  intro r hr
  obtain ⟨j, l, _, rfl⟩ := mem_mkRows_toRaw hr
  rw [computeRow_toRaw]
  rfl

/-- On a non-empty well-formed input the `name` column exists. -/
theorem anyName_toRaw {loans : List Loan} (hne : loans ≠ []) :
    ((loans.map Loan.toRaw).any fun l => l.name.isSome) = true := by
  match loans, hne with
  | l :: ls, _ => simp [Loan.toRaw]

/-- On a non-empty well-formed input the `principal` column exists. -/
theorem anyPrincipal_toRaw {loans : List Loan} (hne : loans ≠ []) :
    ((loans.map Loan.toRaw).any fun l => l.principal.isSome) = true := by
  match loans, hne with
  | l :: ls, _ => simp [Loan.toRaw]

/-- On a non-empty well-formed input the `rate` column exists. -/
theorem anyRate_toRaw {loans : List Loan} (hne : loans ≠ []) :
    ((loans.map Loan.toRaw).any fun l => l.rate.isSome) = true := by
  match loans, hne with
  | l :: ls, _ => simp [Loan.toRaw]

/-- The frame of a non-empty well-formed input is non-empty. -/
theorem mkRows_toRaw_ne_nil {loans : List Loan} (hne : loans ≠ []) :
    mkRows (loans.map Loan.toRaw) ≠ [] := by
  intro h
  have hl := congrArg List.length h
  rw [mkRows, mkRowsFrom_length, List.length_map] at hl
  exact hne (List.length_eq_zero.mp (by simpa using hl))

/-- The summary of a non-empty well-formed input: no error is raised, the
totals are the exact principal sum and the sum of the rounded per-loan
monthly interests, and the three extremal names are the names of the first
loan of maximal rate, the first loan of minimal principal, and the first
loan of maximal rounded monthly interest. -/
theorem summaryOf_toRaw (loans : List Loan) (hne : loans ≠ []) :
    ∃ s : Summary,
      summaryOf (loans.map Loan.toRaw) (mkRows (loans.map Loan.toRaw)) = .ok s ∧
      s.total_debt = .fin (loans.map fun l => l.principal).sum ∧
      s.total_monthly_interest = .fin (loans.map fun l => monthlyQ l).sum ∧
      (∃ (n : Nat) (ln : Loan), loans[n]? = some ln ∧
        s.highest_interest_loan = some ln.name ∧
        (∀ (m : Nat) (lm : Loan), loans[m]? = some lm → lm.rate ≤ ln.rate) ∧
        (∀ (m : Nat) (lm : Loan), m < n → loans[m]? = some lm → lm.rate < ln.rate)) ∧
      (∃ (n : Nat) (ln : Loan), loans[n]? = some ln ∧
        s.smallest_balance_loan = some ln.name ∧
        (∀ (m : Nat) (lm : Loan), loans[m]? = some lm → ln.principal ≤ lm.principal) ∧
        (∀ (m : Nat) (lm : Loan), m < n → loans[m]? = some lm →
          ln.principal < lm.principal)) ∧
      (∃ (n : Nat) (ln : Loan), loans[n]? = some ln ∧
        s.most_expensive_loan = some ln.name ∧
        (∀ (m : Nat) (lm : Loan), loans[m]? = some lm → monthlyQ lm ≤ monthlyQ ln) ∧
        (∀ (m : Nat) (lm : Loan), m < n → loans[m]? = some lm →
          monthlyQ lm < monthlyQ ln)) := by
  have hrows_ne : mkRows (loans.map Loan.toRaw) ≠ [] := mkRows_toRaw_ne_nil hne
  have hgtmax : ∀ x y : PFloat, (fun cand cur => pfLt cur cand) x y = !(pfLe x y) :=
    fun x y => pf_lt_eq_not_le y x
  have hgtmin : ∀ x y : PFloat,
      (fun cand cur => pfLt cand cur) x y = !((fun a b => pfLe b a) x y) :=
    fun x y => pf_lt_eq_not_le x y
  have totalFlip : ∀ a b : PFloat, (fun a b => pfLe b a) a b = true ∨
      (fun a b => pfLe b a) b a = true := fun a b => (pf_le_total a b).symm
  have transFlip : ∀ {a b c : PFloat}, (fun a b => pfLe b a) a b = true →
      (fun a b => pfLe b a) b c = true → (fun a b => pfLe b a) a c = true :=
    fun hab hbc => pf_le_trans hbc hab
  obtain ⟨res1, n1, hsome1, hget1, hmax1, hfirst1⟩ :=
    argFirst_spec (fun cand cur => pfLt cur cand) pfLe pf_le_total
      (fun h1 h2 => pf_le_trans h1 h2) hgtmax (fun r => r.rate)
      (mkRows (loans.map Loan.toRaw)) hrows_ne mkRows_toRaw_rate_not_na
  obtain ⟨res2, n2, hsome2, hget2, hmax2, hfirst2⟩ :=
    argFirst_spec (fun cand cur => pfLt cand cur) (fun a b => pfLe b a) totalFlip
      transFlip hgtmin (fun r => r.principal)
      (mkRows (loans.map Loan.toRaw)) hrows_ne mkRows_toRaw_principal_not_na
  obtain ⟨res3, n3, hsome3, hget3, hmax3, hfirst3⟩ :=
    argFirst_spec (fun cand cur => pfLt cur cand) pfLe pf_le_total
      (fun h1 h2 => pf_le_trans h1 h2) hgtmax (fun r => r.monthly_interest)
      (mkRows (loans.map Loan.toRaw)) hrows_ne mkRows_toRaw_monthly_not_na
  have hok1 : idxmaxBy (fun r => r.rate) (mkRows (loans.map Loan.toRaw)) = .ok res1 := by
    rw [idxmaxBy, hsome1]
  have hok2 : idxminBy (fun r => r.principal) (mkRows (loans.map Loan.toRaw)) = .ok res2 := by
    rw [idxminBy, hsome2]
  have hok3 : idxmaxBy (fun r => r.monthly_interest) (mkRows (loans.map Loan.toRaw)) = .ok res3 := by
    rw [idxmaxBy, hsome3]
  have hgn : ∀ r : Row, getName (loans.map Loan.toRaw) r = .ok r.name := by
    intro r
    rw [getName, if_pos (anyName_toRaw hne)]
  refine ⟨{ total_debt := colSum ((mkRows (loans.map Loan.toRaw)).map fun r => r.principal)
            total_monthly_interest :=
              colSum ((mkRows (loans.map Loan.toRaw)).map fun r => r.monthly_interest)
            highest_interest_loan := res1.name
            smallest_balance_loan := res2.name
            most_expensive_loan := res3.name }, ?_, ?_, ?_, ?_, ?_, ?_⟩
  · simp only [summaryOf, hok1, hok2, hok3, hgn]
  · show colSum ((mkRows (loans.map Loan.toRaw)).map fun r => r.principal) = _
    rw [mkRows, mkRowsFrom_toRaw_map_principal]
    rw [show (loans.map fun l => PFloat.fin l.principal) =
      (loans.map fun l => l.principal).map fun q => PFloat.fin q by
        rw [List.map_map]; rfl]
    exact colSum_fin _
  · show colSum ((mkRows (loans.map Loan.toRaw)).map fun r => r.monthly_interest) = _
    rw [mkRows, mkRowsFrom_toRaw_map_monthly]
    rw [show (loans.map fun l => PFloat.fin (monthlyQ l)) =
      (loans.map fun l => monthlyQ l).map fun q => PFloat.fin q by
        rw [List.map_map]; rfl]
    exact colSum_fin _
  · rw [mkRows_toRaw_getElem] at hget1
    cases hl : loans[n1]? with
    | none => rw [hl] at hget1; simp at hget1
    | some ln =>
      rw [hl] at hget1
      simp only [Option.map_some', Option.some.injEq] at hget1
      refine ⟨n1, ln, hl, ?_, ?_, ?_⟩
      · show res1.name = some ln.name
        rw [← hget1, computeRow_toRaw]
      · intro m lm hm
        have hmem : computeRow m lm.toRaw ∈ mkRows (loans.map Loan.toRaw) :=
          List.mem_iff_getElem?.mpr ⟨m, by rw [mkRows_toRaw_getElem, hm]; rfl⟩
        have h := hmax1 _ hmem
        rw [← hget1, computeRow_toRaw, computeRow_toRaw] at h
        exact (pf_le_fin_iff _ _).mp h
      · intro m lm hmn hm
        have h := hfirst1 m (computeRow m lm.toRaw) hmn
          (by rw [mkRows_toRaw_getElem, hm]; rfl)
        rw [← hget1, computeRow_toRaw, computeRow_toRaw] at h
        refine lt_of_not_le fun hc => ?_
        rw [(pf_le_fin_iff ln.rate lm.rate).mpr hc] at h
        cases h
  · rw [mkRows_toRaw_getElem] at hget2
    cases hl : loans[n2]? with
    | none => rw [hl] at hget2; simp at hget2
    | some ln =>
      rw [hl] at hget2
      simp only [Option.map_some', Option.some.injEq] at hget2
      refine ⟨n2, ln, hl, ?_, ?_, ?_⟩
      · show res2.name = some ln.name
        rw [← hget2, computeRow_toRaw]
      · intro m lm hm
        have hmem : computeRow m lm.toRaw ∈ mkRows (loans.map Loan.toRaw) :=
          List.mem_iff_getElem?.mpr ⟨m, by rw [mkRows_toRaw_getElem, hm]; rfl⟩
        have h := hmax2 _ hmem
        rw [← hget2, computeRow_toRaw, computeRow_toRaw] at h
        exact (pf_le_fin_iff _ _).mp h
      · intro m lm hmn hm
        have h := hfirst2 m (computeRow m lm.toRaw) hmn
          (by rw [mkRows_toRaw_getElem, hm]; rfl)
        rw [← hget2, computeRow_toRaw, computeRow_toRaw] at h
        refine lt_of_not_le fun hc => ?_
        rw [(pf_le_fin_iff lm.principal ln.principal).mpr hc] at h
        cases h
  · rw [mkRows_toRaw_getElem] at hget3
    cases hl : loans[n3]? with
    | none => rw [hl] at hget3; simp at hget3
    | some ln =>
      rw [hl] at hget3
      simp only [Option.map_some', Option.some.injEq] at hget3
      refine ⟨n3, ln, hl, ?_, ?_, ?_⟩
      · show res3.name = some ln.name
        rw [← hget3, computeRow_toRaw]
      · intro m lm hm
        have hmem : computeRow m lm.toRaw ∈ mkRows (loans.map Loan.toRaw) :=
          List.mem_iff_getElem?.mpr ⟨m, by rw [mkRows_toRaw_getElem, hm]; rfl⟩
        have h := hmax3 _ hmem
        rw [← hget3, computeRow_toRaw, computeRow_toRaw] at h
        exact (pf_le_fin_iff _ _).mp h
      · intro m lm hmn hm
        have h := hfirst3 m (computeRow m lm.toRaw) hmn
          (by rw [mkRows_toRaw_getElem, hm]; rfl)
        rw [← hget3, computeRow_toRaw, computeRow_toRaw] at h
        refine lt_of_not_le fun hc => ?_
        rw [(pf_le_fin_iff (monthlyQ ln) (monthlyQ lm)).mpr hc] at h
        cases h

/-- On a non-empty well-formed input the analysis succeeds, and its report
is the three descending stable sorts of the frame together with the
computed summary. -/
theorem analyze_toRaw (loans : List Loan) (hne : loans ≠ []) {s : Summary}
    (hs : summaryOf (loans.map Loan.toRaw) (mkRows (loans.map Loan.toRaw)) = .ok s) :
    analyze (loans.map Loan.toRaw) =
      .ok { avalanche_method := pandasSortDesc pfIsNA pfLe (fun r => r.avalanche_score)
              (mkRows (loans.map Loan.toRaw))
            snowball_method := pandasSortDesc pfIsNA pfLe (fun r => r.snowball_score)
              (mkRows (loans.map Loan.toRaw))
            balanced_method := pandasSortDesc bsIsNA bsLe (fun r => r.balanced_score)
              (mkRows (loans.map Loan.toRaw))
            summary := s } := by
  rw [analyze, anyPrincipal_toRaw hne, anyRate_toRaw hne]
  simp only [Bool.not_true, Bool.false_eq_true, if_false]
  rw [hs]

/-- The index of a computed row is its input position. -/
theorem computeRow_idx (i : Nat) (l : RawLoan) : (computeRow i l).idx = i := rfl

/-- The row at input position `i` of the frame has index `i`. -/
theorem idx_of_getElem {loans : List RawLoan} {i : Nat} {a : Row}
    (h : (mkRows loans)[i]? = some a) : a.idx = i := by
  rw [mkRows_getElem] at h
  cases hl : loans[i]? with
  | none => rw [hl] at h; simp at h
  | some l =>
    rw [hl] at h
    simp only [Option.map_some', Option.some.injEq] at h
    rw [← h]
    rfl

/-- A non-NaN cell never compares below NaN. -/
theorem pf_not_le_nan {x y : PFloat} (hx : pfIsNA x = false) (hy : pfIsNA y = true) :
    pfLe x y = false := by
  cases x <;> cases y <;> simp_all [pfIsNA, pfLe]

/-- A non-NaN balanced score never compares below NaN. -/
theorem bs_not_le_nan {x y : BScore} (hx : bsIsNA x = false) (hy : bsIsNA y = true) :
    bsLe x y = false := by
  cases x <;> cases y <;> simp_all [bsIsNA, bsLe]

/-- Stability of the sort model at the level of ranking positions: two rows
of the frame in input order with order-equivalent keys keep that order in
the ranking. -/
theorem pandasSortDesc_stable_posOf {κ : Type} (isNA : κ → Bool) (le : κ → κ → Bool)
    (key : Row → κ)
    (hnale : ∀ x y : κ, isNA x = false → isNA y = true → le x y = false)
    {rows : List Row} {a b : Row}
    (hnd : ((pandasSortDesc isNA le key rows).map fun r => r.idx).Nodup)
    (hab : [a, b] <+ rows)
    (he1 : le (key a) (key b) = true) (he2 : le (key b) (key a) = true) :
    posOf a.idx (pandasSortDesc isNA le key rows) <
      posOf b.idx (pandasSortDesc isNA le key rows) := by
  rcases hna : isNA (key a) with _ | _ <;> rcases hnb : isNA (key b) with _ | _
  · exact posOf_lt_posOf hnd (pandasSortDesc_pair isNA le key hab (Or.inl ⟨hna, hnb, he2⟩))
  · rw [hnale (key a) (key b) hna hnb] at he1
    cases he1
  · rw [hnale (key b) (key a) hnb hna] at he2
    cases he2
  · exact posOf_lt_posOf hnd (pandasSortDesc_pair isNA le key hab (Or.inr ⟨hna, hnb⟩))

/-- Two members of a pairwise-ordered list of rows with distinct indices
form a pair sublist when the relation refuses the opposite order. -/
theorem pair_sublist_of_pairwise {R : Row → Row → Prop} {l : List Row}
    (hp : l.Pairwise R) {a b : Row} (ha : a ∈ l) (hb : b ∈ l)
    (hne : a.idx ≠ b.idx) (hnr : ¬ R b a) : [a, b] <+ l := by
  obtain ⟨n, hn⟩ := List.getElem?_of_mem ha
  obtain ⟨m, hm⟩ := List.getElem?_of_mem hb
  rcases lt_trichotomy n m with h | h | h
  · exact pair_sublist_of_getElem l n m a b h hn hm
  · subst h
    rw [hn] at hm
    simp only [Option.some.injEq] at hm
    exact absurd (congrArg Row.idx hm) hne
  · exact absurd (List.pairwise_iff_forall_sublist.mp hp
      (pair_sublist_of_getElem l m n b a h hm hn)) hnr

/-- The balanced score of a positive-principal loan cell is the symbolic
finite score. -/
theorem balancedScore_fin_pos (r p : ℚ) (hp : 0 < p) :
    balancedScore (.fin r) (.fin p) = .fin r ⟨p, hp⟩ := by
  simp [balancedScore, hp]

/-- The balanced score of a zero-principal, positive-rate loan cell is
`-inf` (`rate * log 0 = rate * -inf`). -/
theorem balancedScore_zero_pos_rate {r : ℚ} (hr : 0 < r) :
    balancedScore (.fin r) (.fin 0) = .negInf := by
  simp [balancedScore, hr, lt_irrefl]

/-- The balanced score of a zero-principal, zero-rate loan cell is NaN
(`0 * -inf`). -/
theorem balancedScore_zero_zero_rate :
    balancedScore (.fin 0) (.fin 0) = .nan := by
  simp [balancedScore, lt_irrefl]

/-- The balanced score of a zero-principal loan cell is never finite. -/
theorem balancedScore_zero_not_finite (r : ℚ) :
    bsIsFinite (balancedScore (.fin r) (.fin 0)) = false := by
  rcases lt_trichotomy r 0 with h | h | h
  · simp [balancedScore, lt_irrefl, h, not_lt_of_lt h, bsIsFinite]
  · subst h
    rw [balancedScore_zero_zero_rate]
    rfl
  · rw [balancedScore_zero_pos_rate h]
    rfl

/-- The interest-to-principal ratio of a zero-principal loan cell is never
finite (division by zero). -/
theorem pfDiv_fin_zero_not_finite (x : ℚ) :
    pfIsFinite (pfDiv (.fin x) (.fin 0)) = false := by
  rcases lt_trichotomy x 0 with h | h | h
  · simp [pfDiv, h, not_lt_of_lt h, pfIsFinite]
  · subst h
    simp [pfDiv, lt_irrefl, pfIsFinite]
  · simp [pfDiv, h, pfIsFinite]

/-- The name column of the frame of well-formed loans. -/
theorem mkRowsFrom_toRaw_map_name (i : Nat) :
    ∀ loans : List Loan,
      (mkRowsFrom i (loans.map Loan.toRaw)).map (fun r => r.name) =
        loans.map fun l => some l.name
  | [] => rfl
  | l :: ls => by
    simp only [List.map_cons, mkRowsFrom, List.map_cons]
    rw [computeRow_toRaw, mkRowsFrom_toRaw_map_name (i + 1) ls]

/-- C4: the claim says `analyze []` fails with a clear "no loans to
analyze" error rather than crashing on an arbitrary lookup; the code has no
empty-input check, and the very first column access of line 21 raises
`KeyError('principal')` on the columnless empty DataFrame.  This theorem
evaluates the model at the failing input, exhibiting that arbitrary-lookup
failure. -/
theorem C4_empty_input_keyerror :
    analyze [] = .error (.keyError "principal") := rfl

/-- C8: the claim says a record missing a required field makes `analyze`
fail fast with a descriptive error.  The code instead fills the missing
cell with NaN and completes: on a two-record input whose first record lacks
`rate`, the analysis returns a report (no error), with that record's
`monthly_interest` equal to NaN; and a record missing only `min_payment` is
accepted, but its `min_payment` cell is NaN, not zero. -/
theorem C8_missing_field_no_fail_fast :
    onOk (analyze
        [{ name := some "A", principal := some 100, rate := none, min_payment := some 5 },
         { name := some "B", principal := some 200, rate := some 4, min_payment := some 6 }])
      (fun rep => rep.avalanche_method.any fun r =>
        r.idx == 0 && r.monthly_interest == .nan) = true ∧
    onOk (analyze
        [{ name := some "C", principal := some 50, rate := some 2, min_payment := none }])
      (fun rep => rep.avalanche_method.any fun r =>
        r.idx == 0 && r.min_payment == .nan) = true := by
  constructor
  · rfl
  · rfl

/-- C5, counterexample: the claim allows a non-finite `balanced_score` for
a zero-principal loan only when its rate is nonzero.  On the single loan
`(name "A", principal 0, rate 0)` the analysis succeeds and that loan's
`balanced_score` is NaN (`0 * log 0 = 0 * -inf`), hence non-finite with a
zero rate, contradicting the claim. -/
theorem C5_counterexample :
    onOk (analyze (([{ name := "A", principal := 0, rate := 0, min_payment := 0 }] :
        List Loan).map Loan.toRaw))
      (fun rep => rep.balanced_method.any fun r =>
        r.rate == .fin 0 && r.balanced_score == .nan &&
          !(bsIsFinite r.balanced_score)) = true := by
  rfl

/-- C10, counterexample: the claim places every zero-principal loan after
every positive-principal loan in the balanced ranking, for every input.
With the zero-principal loan `Z` carrying rate `-1`, its balanced score is
`(-1) * log 0 = +inf`, and the descending sort places `Z` first, before the
positive-principal loan `P`. -/
theorem C10_counterexample :
    onOk (analyze (([{ name := "Z", principal := 0, rate := -1, min_payment := 0 },
        { name := "P", principal := 2, rate := 1, min_payment := 1 }] :
        List Loan).map Loan.toRaw))
      (fun rep =>
        (rep.balanced_method.any fun r => r.idx == 0 && r.balanced_score == .posInf) &&
        decide (posOf 0 rep.balanced_method < posOf 1 rep.balanced_method)) = true := by
  rfl

/-- Derived fields of any row of the frame of well-formed loans, in terms
of that row's own loan. -/
theorem row_fields {loans : List Loan} {r : Row}
    (hr : r ∈ mkRows (loans.map Loan.toRaw)) :
    ∃ l : Loan, loans[r.idx]? = some l ∧ r.name = some l.name ∧
      r.rate = .fin l.rate ∧ r.principal = .fin l.principal ∧
      r.min_payment = .fin l.min_payment ∧
      r.monthly_interest = .fin (monthlyQ l) ∧
      r.interest_principal_ratio = pfDiv (.fin (l.rate / 100)) (.fin l.principal) ∧
      r.avalanche_score = .fin l.rate ∧
      r.snowball_score = .fin (-l.principal) ∧
      r.balanced_score = balancedScore (.fin l.rate) (.fin l.principal) := by
  obtain ⟨j, l, hj, rfl⟩ := mem_mkRows_toRaw hr
  rw [computeRow_idx, computeRow_toRaw]
  exact ⟨l, hj, rfl, rfl, rfl, rfl, rfl, rfl, rfl, rfl, rfl⟩

/-- C3: every ranking of a successful analysis is a permutation of the
input set: its name column is a permutation of the input name column, its
index column is a permutation of the input positions (no loan added,
dropped, or duplicated), and the three rankings are permutations of one
another. -/
theorem C3_permutation (loans : List Loan) (hne : loans ≠ []) :
    ∃ rep : Report, analyze (loans.map Loan.toRaw) = .ok rep ∧
      (rep.avalanche_method.map fun r => r.name) ~ (loans.map fun l => some l.name) ∧
      (rep.snowball_method.map fun r => r.name) ~ (loans.map fun l => some l.name) ∧
      (rep.balanced_method.map fun r => r.name) ~ (loans.map fun l => some l.name) ∧
      (rep.avalanche_method.map fun r => r.idx) ~ List.range loans.length ∧
      (rep.snowball_method.map fun r => r.idx) ~ List.range loans.length ∧
      (rep.balanced_method.map fun r => r.idx) ~ List.range loans.length ∧
      rep.avalanche_method ~ rep.snowball_method ∧
      rep.avalanche_method ~ rep.balanced_method := by
  obtain ⟨s, hs, _⟩ := summaryOf_toRaw loans hne
  have hname : (mkRows (loans.map Loan.toRaw)).map (fun r => r.name) =
      loans.map fun l => some l.name := by
    rw [mkRows, mkRowsFrom_toRaw_map_name]
  have hidx : (mkRows (loans.map Loan.toRaw)).map (fun r => r.idx) =
      List.range loans.length := by
    rw [mkRows, mkRowsFrom_map_idx, List.length_map, List.range_eq_range']
  refine ⟨_, analyze_toRaw loans hne hs, ?_, ?_, ?_, ?_, ?_, ?_, ?_, ?_⟩
  · exact hname ▸ (pandasSortDesc_perm pfIsNA pfLe (fun r => r.avalanche_score) _).map _
  · exact hname ▸ (pandasSortDesc_perm pfIsNA pfLe (fun r => r.snowball_score) _).map _
  · exact hname ▸ (pandasSortDesc_perm bsIsNA bsLe (fun r => r.balanced_score) _).map _
  · exact hidx ▸ (pandasSortDesc_perm pfIsNA pfLe (fun r => r.avalanche_score) _).map _
  · exact hidx ▸ (pandasSortDesc_perm pfIsNA pfLe (fun r => r.snowball_score) _).map _
  · exact hidx ▸ (pandasSortDesc_perm bsIsNA bsLe (fun r => r.balanced_score) _).map _
  · exact (pandasSortDesc_perm pfIsNA pfLe (fun r => r.avalanche_score) _).trans
      (pandasSortDesc_perm pfIsNA pfLe (fun r => r.snowball_score) _).symm
  · exact (pandasSortDesc_perm pfIsNA pfLe (fun r => r.avalanche_score) _).trans
      (pandasSortDesc_perm bsIsNA bsLe (fun r => r.balanced_score) _).symm

/-- C6: on a successful analysis of a non-empty well-formed input,
`total_debt` is the exact sum of the principals and
`total_monthly_interest` is the sum of the per-loan monthly interests each
already rounded to two decimals (not the rounding of the exact sum). -/
theorem C6_totals (loans : List Loan) (hne : loans ≠ []) :
    ∃ rep : Report, analyze (loans.map Loan.toRaw) = .ok rep ∧
      rep.summary.total_debt = .fin (loans.map fun l => l.principal).sum ∧
      rep.summary.total_monthly_interest =
        .fin (loans.map fun l => round2q (l.principal * (l.rate / 100) / 12)).sum := by
  obtain ⟨s, hs, h1, h2, _⟩ := summaryOf_toRaw loans hne
  exact ⟨_, analyze_toRaw loans hne hs, h1, h2⟩

/-- C7: on a successful analysis of a non-empty well-formed input,
`highest_interest_loan` is the name of the first loan of maximal rate,
`smallest_balance_loan` the name of the first loan of minimal principal,
and `most_expensive_loan` the name of the first loan of maximal rounded
monthly interest; ties resolve to the earliest input position. -/
theorem C7_extremal_names (loans : List Loan) (hne : loans ≠ []) :
    ∃ rep : Report, analyze (loans.map Loan.toRaw) = .ok rep ∧
      (∃ (n : Nat) (ln : Loan), loans[n]? = some ln ∧
        rep.summary.highest_interest_loan = some ln.name ∧
        (∀ (m : Nat) (lm : Loan), loans[m]? = some lm → lm.rate ≤ ln.rate) ∧
        (∀ (m : Nat) (lm : Loan), m < n → loans[m]? = some lm → lm.rate < ln.rate)) ∧
      (∃ (n : Nat) (ln : Loan), loans[n]? = some ln ∧
        rep.summary.smallest_balance_loan = some ln.name ∧
        (∀ (m : Nat) (lm : Loan), loans[m]? = some lm → ln.principal ≤ lm.principal) ∧
        (∀ (m : Nat) (lm : Loan), m < n → loans[m]? = some lm →
          ln.principal < lm.principal)) ∧
      (∃ (n : Nat) (ln : Loan), loans[n]? = some ln ∧
        rep.summary.most_expensive_loan = some ln.name ∧
        (∀ (m : Nat) (lm : Loan), loans[m]? = some lm → monthlyQ lm ≤ monthlyQ ln) ∧
        (∀ (m : Nat) (lm : Loan), m < n → loans[m]? = some lm →
          monthlyQ lm < monthlyQ ln)) := by
  obtain ⟨s, hs, _, _, h3, h4, h5⟩ := summaryOf_toRaw loans hne
  exact ⟨_, analyze_toRaw loans hne hs, h3, h4, h5⟩

/-- C9: on a successful analysis of a non-empty well-formed input, every
loan appears in the avalanche ranking, and in each of the three rankings
the `monthly_interest` of every row is its loan's
`principal * (rate/100) / 12` rounded to two decimals by the single
rounding function `round2q` (round-half-to-even). -/
theorem C9_monthly_interest (loans : List Loan) (hne : loans ≠ []) :
    ∃ rep : Report, analyze (loans.map Loan.toRaw) = .ok rep ∧
      (∀ (n : Nat) (l : Loan), loans[n]? = some l →
        ∃ r ∈ rep.avalanche_method, r.idx = n) ∧
      (∀ r ∈ rep.avalanche_method, ∀ l : Loan, loans[r.idx]? = some l →
        r.monthly_interest = .fin (round2q (l.principal * (l.rate / 100) / 12))) ∧
      (∀ r ∈ rep.snowball_method, ∀ l : Loan, loans[r.idx]? = some l →
        r.monthly_interest = .fin (round2q (l.principal * (l.rate / 100) / 12))) ∧
      (∀ r ∈ rep.balanced_method, ∀ l : Loan, loans[r.idx]? = some l →
        r.monthly_interest = .fin (round2q (l.principal * (l.rate / 100) / 12))) := by
  obtain ⟨s, hs, _⟩ := summaryOf_toRaw loans hne
  have hcell : ∀ r ∈ mkRows (loans.map Loan.toRaw), ∀ l : Loan,
      loans[r.idx]? = some l →
      r.monthly_interest = .fin (round2q (l.principal * (l.rate / 100) / 12)) := by
    intro r hr l hl
    obtain ⟨l', hl', _, _, _, _, hm, _⟩ := row_fields hr
    rw [hl'] at hl
    simp only [Option.some.injEq] at hl
    rw [hm, hl]
    rfl
  refine ⟨_, analyze_toRaw loans hne hs, ?_, ?_, ?_, ?_⟩
  · intro n l hl
    refine ⟨computeRow n l.toRaw, ?_, computeRow_idx n l.toRaw⟩
    refine (pandasSortDesc_perm pfIsNA pfLe (fun r => r.avalanche_score) _).mem_iff.mpr ?_
    exact List.mem_iff_getElem?.mpr ⟨n, by rw [mkRows_toRaw_getElem, hl]; rfl⟩
  · intro r hr
    exact hcell r ((pandasSortDesc_perm pfIsNA pfLe (fun r => r.avalanche_score) _).subset hr)
  · intro r hr
    exact hcell r ((pandasSortDesc_perm pfIsNA pfLe (fun r => r.snowball_score) _).subset hr)
  · intro r hr
    exact hcell r ((pandasSortDesc_perm bsIsNA bsLe (fun r => r.balanced_score) _).subset hr)

/-- C2: on a successful analysis of a non-empty well-formed input, the
avalanche ranking is non-increasing in `rate`, the snowball ranking is
non-decreasing in `principal`, and the balanced ranking is non-increasing
in the real score `rate * ln principal` over the positive-principal
loans. -/
theorem C2_sorted (loans : List Loan) (hne : loans ≠ []) :
    ∃ rep : Report, analyze (loans.map Loan.toRaw) = .ok rep ∧
      rep.avalanche_method.Pairwise (fun a b =>
        ∀ x y : ℚ, a.rate = .fin x → b.rate = .fin y → y ≤ x) ∧
      rep.snowball_method.Pairwise (fun a b =>
        ∀ x y : ℚ, a.principal = .fin x → b.principal = .fin y → x ≤ y) ∧
      rep.balanced_method.Pairwise (fun a b =>
        ∀ ra pa rb pb : ℚ, a.rate = .fin ra → a.principal = .fin pa →
          b.rate = .fin rb → b.principal = .fin pb → 0 < pa → 0 < pb →
          (rb : ℝ) * Real.log (pb : ℝ) ≤ (ra : ℝ) * Real.log (pa : ℝ)) := by
  obtain ⟨s, hs, _⟩ := summaryOf_toRaw loans hne
  refine ⟨_, analyze_toRaw loans hne hs, ?_, ?_, ?_⟩
  · refine (pandasSortDesc_pairwise pfIsNA pfLe pf_le_total
      (fun h1 h2 => pf_le_trans h1 h2) (fun r => r.avalanche_score) _).imp_of_mem ?_
    intro a b ha hb hrel x y hx hy
    obtain ⟨la, _, _, hra, _, _, _, _, hsa, _, _⟩ := row_fields
      ((pandasSortDesc_perm pfIsNA pfLe (fun r => r.avalanche_score) _).subset ha)
    obtain ⟨lb, _, _, hrb, _, _, _, _, hsb, _, _⟩ := row_fields
      ((pandasSortDesc_perm pfIsNA pfLe (fun r => r.avalanche_score) _).subset hb)
    rw [hra] at hx
    rw [hrb] at hy
    simp only [PFloat.fin.injEq] at hx hy
    rcases hrel with hna | ⟨_, _, hle⟩
    · rw [hsb] at hna
      cases hna
    · rw [hsa, hsb] at hle
      rw [← hx, ← hy]
      exact (pf_le_fin_iff _ _).mp hle
  · refine (pandasSortDesc_pairwise pfIsNA pfLe pf_le_total
      (fun h1 h2 => pf_le_trans h1 h2) (fun r => r.snowball_score) _).imp_of_mem ?_
    intro a b ha hb hrel x y hx hy
    obtain ⟨la, _, _, _, hpa, _, _, _, _, hsa, _⟩ := row_fields
      ((pandasSortDesc_perm pfIsNA pfLe (fun r => r.snowball_score) _).subset ha)
    obtain ⟨lb, _, _, _, hpb, _, _, _, _, hsb, _⟩ := row_fields
      ((pandasSortDesc_perm pfIsNA pfLe (fun r => r.snowball_score) _).subset hb)
    rw [hpa] at hx
    rw [hpb] at hy
    simp only [PFloat.fin.injEq] at hx hy
    rcases hrel with hna | ⟨_, _, hle⟩
    · rw [hsb] at hna
      cases hna
    · rw [hsa, hsb] at hle
      have h := (pf_le_fin_iff _ _).mp hle
      rw [← hx, ← hy]
      linarith
  · refine (pandasSortDesc_pairwise bsIsNA bsLe bs_le_total
      (fun h1 h2 => bs_le_trans h1 h2) (fun r => r.balanced_score) _).imp_of_mem ?_
    intro a b ha hb hrel ra pa rb pb hra hpa hrb hpb hpa0 hpb0
    obtain ⟨la, _, _, hra', hpa', _, _, _, _, _, hsa⟩ := row_fields
      ((pandasSortDesc_perm bsIsNA bsLe (fun r => r.balanced_score) _).subset ha)
    obtain ⟨lb, _, _, hrb', hpb', _, _, _, _, _, hsb⟩ := row_fields
      ((pandasSortDesc_perm bsIsNA bsLe (fun r => r.balanced_score) _).subset hb)
    rw [hra'] at hra
    rw [hpa'] at hpa
    rw [hrb'] at hrb
    rw [hpb'] at hpb
    simp only [PFloat.fin.injEq] at hra hpa hrb hpb
    subst hra
    subst hpa
    subst hrb
    subst hpb
    rw [balancedScore_fin_pos la.rate la.principal hpa0] at hsa
    rw [balancedScore_fin_pos lb.rate lb.principal hpb0] at hsb
    rcases hrel with hna | ⟨_, _, hle⟩
    · rw [hsb] at hna
      cases hna
    · rw [hsa, hsb] at hle
      exact (fin_le_iff lb.rate la.rate ⟨lb.principal, hpb0⟩ ⟨la.principal, hpa0⟩).mp hle

/-- C5, amended: an input containing a zero-principal loan still analyzes
successfully; that loan appears in all three rankings; every row is
computed from its own record only; the `interest_principal_ratio` and the
`balanced_score` of every zero-principal row are non-finite (the latter for
any rate: NaN at rate 0, an infinity otherwise), while every
positive-principal row keeps finite ratio, balanced score and monthly
interest. -/
theorem C5_zero_principal (loans : List Loan) (k : Nat) (lk : Loan)
    (hk : loans[k]? = some lk) (hk0 : lk.principal = 0) :
    ∃ rep : Report, analyze (loans.map Loan.toRaw) = .ok rep ∧
      (∃ r ∈ rep.avalanche_method, r.idx = k) ∧
      (∃ r ∈ rep.snowball_method, r.idx = k) ∧
      (∃ r ∈ rep.balanced_method, r.idx = k) ∧
      (∀ r ∈ rep.avalanche_method, ∀ l : Loan, loans[r.idx]? = some l →
        r = computeRow r.idx l.toRaw ∧
        (l.principal = 0 →
          pfIsFinite r.interest_principal_ratio = false ∧
          bsIsFinite r.balanced_score = false) ∧
        (0 < l.principal →
          pfIsFinite r.interest_principal_ratio = true ∧
          bsIsFinite r.balanced_score = true ∧
          pfIsFinite r.monthly_interest = true)) := by
  have hne : loans ≠ [] := by
    intro h
    subst h
    simp at hk
  obtain ⟨s, hs, _⟩ := summaryOf_toRaw loans hne
  have hkmem : computeRow k lk.toRaw ∈ mkRows (loans.map Loan.toRaw) :=
    List.mem_iff_getElem?.mpr ⟨k, by rw [mkRows_toRaw_getElem, hk]; rfl⟩
  refine ⟨_, analyze_toRaw loans hne hs, ?_, ?_, ?_, ?_⟩
  · exact ⟨computeRow k lk.toRaw,
      (pandasSortDesc_perm pfIsNA pfLe (fun r => r.avalanche_score) _).mem_iff.mpr hkmem,
      computeRow_idx k lk.toRaw⟩
  · exact ⟨computeRow k lk.toRaw,
      (pandasSortDesc_perm pfIsNA pfLe (fun r => r.snowball_score) _).mem_iff.mpr hkmem,
      computeRow_idx k lk.toRaw⟩
  · exact ⟨computeRow k lk.toRaw,
      (pandasSortDesc_perm bsIsNA bsLe (fun r => r.balanced_score) _).mem_iff.mpr hkmem,
      computeRow_idx k lk.toRaw⟩
  · intro r hr l hl
    obtain ⟨j, l', hj, rfl⟩ := mem_mkRows_toRaw
      ((pandasSortDesc_perm pfIsNA pfLe (fun r => r.avalanche_score) _).subset hr)
    rw [computeRow_idx] at hl
    rw [hj] at hl
    simp only [Option.some.injEq] at hl
    subst hl
    rw [computeRow_idx]
    refine ⟨rfl, fun h0 => ?_, fun hpos => ?_⟩
    · rw [computeRow_toRaw]
      rw [h0]
      exact ⟨pfDiv_fin_zero_not_finite _, balancedScore_zero_not_finite _⟩
    · rw [computeRow_toRaw]
      refine ⟨?_, ?_, rfl⟩
      · rw [pfDiv_fin_fin (ne_of_gt hpos)]
        rfl
      · rw [balancedScore_fin_pos _ _ hpos]
        rfl

/-- C10, amended: in the balanced ranking, a zero-principal loan of
non-negative rate is placed after every positive-principal loan: its score
is `-inf` when the rate is positive (placed after every finite score) and
NaN when the rate is zero (placed in the trailing NaN block).  A negative
rate would instead give `+inf` and first place, which is why the rate sign
restriction is needed. -/
theorem C10_zero_principal_last (loans : List Loan) (k j : Nat) (lk lj : Loan)
    (hk : loans[k]? = some lk) (hj : loans[j]? = some lj)
    (hk0 : lk.principal = 0) (hkr : 0 ≤ lk.rate) (hjp : 0 < lj.principal) :
    ∃ rep : Report, analyze (loans.map Loan.toRaw) = .ok rep ∧
      posOf j rep.balanced_method < posOf k rep.balanced_method ∧
      (0 < lk.rate → (computeRow k lk.toRaw).balanced_score = .negInf) ∧
      (lk.rate = 0 → (computeRow k lk.toRaw).balanced_score = .nan) := by
  have hne : loans ≠ [] := by
    intro h
    subst h
    simp at hk
  obtain ⟨s, hs, _⟩ := summaryOf_toRaw loans hne
  have hjk : j ≠ k := by
    intro h
    subst h
    rw [hk] at hj
    simp only [Option.some.injEq] at hj
    rw [← hj] at hjp
    rw [hk0] at hjp
    exact lt_irrefl 0 hjp
  have hamem : computeRow j lj.toRaw ∈ mkRows (loans.map Loan.toRaw) :=
    List.mem_iff_getElem?.mpr ⟨j, by rw [mkRows_toRaw_getElem, hj]; rfl⟩
  have hbmem : computeRow k lk.toRaw ∈ mkRows (loans.map Loan.toRaw) :=
    List.mem_iff_getElem?.mpr ⟨k, by rw [mkRows_toRaw_getElem, hk]; rfl⟩
  have hascore : (computeRow j lj.toRaw).balanced_score =
      .fin lj.rate ⟨lj.principal, hjp⟩ := by
    rw [computeRow_toRaw]
    exact balancedScore_fin_pos lj.rate lj.principal hjp
  have hbscore : (computeRow k lk.toRaw).balanced_score =
      balancedScore (.fin lk.rate) (.fin 0) := by
    rw [computeRow_toRaw, hk0]
  have hposk : 0 < lk.rate → (computeRow k lk.toRaw).balanced_score = .negInf := by
    intro h
    rw [hbscore]
    exact balancedScore_zero_pos_rate h
  have hzerok : lk.rate = 0 → (computeRow k lk.toRaw).balanced_score = .nan := by
    intro h
    rw [hbscore, h]
    exact balancedScore_zero_zero_rate
  refine ⟨_, analyze_toRaw loans hne hs, ?_, hposk, hzerok⟩
  have hnd := pandasSortDesc_nodup_idx bsIsNA bsLe (fun r => r.balanced_score)
    (loans.map Loan.toRaw)
  rcases lt_or_eq_of_le hkr with hrpos | hrzero
  · have hsub : [computeRow j lj.toRaw, computeRow k lk.toRaw] <+
        pandasSortDesc bsIsNA bsLe (fun r => r.balanced_score)
          (mkRows (loans.map Loan.toRaw)) := by
      refine pair_sublist_of_pairwise
        (pandasSortDesc_pairwise bsIsNA bsLe bs_le_total
          (fun h1 h2 => bs_le_trans h1 h2) (fun r => r.balanced_score) _)
        ((pandasSortDesc_perm bsIsNA bsLe (fun r => r.balanced_score) _).mem_iff.mpr hamem)
        ((pandasSortDesc_perm bsIsNA bsLe (fun r => r.balanced_score) _).mem_iff.mpr hbmem)
        (by rw [computeRow_idx, computeRow_idx]; exact hjk) ?_
      rw [not_or]
      constructor
      · rw [hascore]
        simp [bsIsNA]
      · intro hcon
        have h := hcon.2.2
        rw [hascore, hposk hrpos] at h
        cases h
    have h := posOf_lt_posOf hnd hsub
    rwa [computeRow_idx, computeRow_idx] at h
  · have haf : computeRow j lj.toRaw ∈
        (mkRows (loans.map Loan.toRaw)).filter
          (fun r => !bsIsNA r.balanced_score) := by
      rw [List.mem_filter]
      refine ⟨hamem, ?_⟩
      rw [hascore]
      rfl
    have hbf : computeRow k lk.toRaw ∈
        (mkRows (loans.map Loan.toRaw)).filter
          (fun r => bsIsNA r.balanced_score) := by
      rw [List.mem_filter]
      refine ⟨hbmem, ?_⟩
      rw [hzerok hrzero.symm]
      rfl
    have hsub : [computeRow j lj.toRaw, computeRow k lk.toRaw] <+
        pandasSortDesc bsIsNA bsLe (fun r => r.balanced_score)
          (mkRows (loans.map Loan.toRaw)) := by
      unfold pandasSortDesc
      have h1 := List.Sublist.append
        (List.singleton_sublist.mpr ((isort_perm (fun a b =>
          bsLe ((fun r => r.balanced_score) b) ((fun r => r.balanced_score) a))
          ((mkRows (loans.map Loan.toRaw)).filter
            (fun r => !bsIsNA r.balanced_score))).mem_iff.mpr haf))
        (List.singleton_sublist.mpr hbf)
      simpa using h1
    have h := posOf_lt_posOf hnd hsub
    rwa [computeRow_idx, computeRow_idx] at h


/-- Witness for C2 at two loans with identical columns. -/
theorem C2_sorted_witness :
    (([{ name := "A", principal := 2, rate := 5, min_payment := 1 },
       { name := "B", principal := 2, rate := 5, min_payment := 1 }] : List Loan) ≠ []) ∧
    (∃ rep : Report, analyze (([{ name := "A", principal := 2, rate := 5, min_payment := 1 },
       { name := "B", principal := 2, rate := 5, min_payment := 1 }] : List Loan).map Loan.toRaw) = .ok rep ∧
      rep.avalanche_method.Pairwise (fun a b =>
        ∀ x y : ℚ, a.rate = .fin x → b.rate = .fin y → y ≤ x) ∧
      rep.snowball_method.Pairwise (fun a b =>
        ∀ x y : ℚ, a.principal = .fin x → b.principal = .fin y → x ≤ y) ∧
      rep.balanced_method.Pairwise (fun a b =>
        ∀ ra pa rb pb : ℚ, a.rate = .fin ra → a.principal = .fin pa →
          b.rate = .fin rb → b.principal = .fin pb → 0 < pa → 0 < pb →
          (rb : ℝ) * Real.log (pb : ℝ) ≤ (ra : ℝ) * Real.log (pa : ℝ))) :=
  ⟨by decide, C2_sorted ([{ name := "A", principal := 2, rate := 5, min_payment := 1 },
       { name := "B", principal := 2, rate := 5, min_payment := 1 }] : List Loan) (by decide)⟩

/-- Witness for C3 at two loans with identical columns. -/
theorem C3_permutation_witness :
    (([{ name := "A", principal := 2, rate := 5, min_payment := 1 },
       { name := "B", principal := 2, rate := 5, min_payment := 1 }] : List Loan) ≠ []) ∧
    (∃ rep : Report, analyze (([{ name := "A", principal := 2, rate := 5, min_payment := 1 },
       { name := "B", principal := 2, rate := 5, min_payment := 1 }] : List Loan).map Loan.toRaw) = .ok rep ∧
      (rep.avalanche_method.map fun r => r.name) ~
        (([{ name := "A", principal := 2, rate := 5, min_payment := 1 },
       { name := "B", principal := 2, rate := 5, min_payment := 1 }] : List Loan).map fun l => some l.name) ∧
      (rep.snowball_method.map fun r => r.name) ~
        (([{ name := "A", principal := 2, rate := 5, min_payment := 1 },
       { name := "B", principal := 2, rate := 5, min_payment := 1 }] : List Loan).map fun l => some l.name) ∧
      (rep.balanced_method.map fun r => r.name) ~
        (([{ name := "A", principal := 2, rate := 5, min_payment := 1 },
       { name := "B", principal := 2, rate := 5, min_payment := 1 }] : List Loan).map fun l => some l.name) ∧
      (rep.avalanche_method.map fun r => r.idx) ~
        List.range ([{ name := "A", principal := 2, rate := 5, min_payment := 1 },
       { name := "B", principal := 2, rate := 5, min_payment := 1 }] : List Loan).length ∧
      (rep.snowball_method.map fun r => r.idx) ~
        List.range ([{ name := "A", principal := 2, rate := 5, min_payment := 1 },
       { name := "B", principal := 2, rate := 5, min_payment := 1 }] : List Loan).length ∧
      (rep.balanced_method.map fun r => r.idx) ~
        List.range ([{ name := "A", principal := 2, rate := 5, min_payment := 1 },
       { name := "B", principal := 2, rate := 5, min_payment := 1 }] : List Loan).length ∧
      rep.avalanche_method ~ rep.snowball_method ∧
      rep.avalanche_method ~ rep.balanced_method) :=
  ⟨by decide, C3_permutation ([{ name := "A", principal := 2, rate := 5, min_payment := 1 },
       { name := "B", principal := 2, rate := 5, min_payment := 1 }] : List Loan) (by decide)⟩

/-- Witness for C6 at two loans with identical columns. -/
theorem C6_totals_witness :
    (([{ name := "A", principal := 2, rate := 5, min_payment := 1 },
       { name := "B", principal := 2, rate := 5, min_payment := 1 }] : List Loan) ≠ []) ∧
    (∃ rep : Report, analyze (([{ name := "A", principal := 2, rate := 5, min_payment := 1 },
       { name := "B", principal := 2, rate := 5, min_payment := 1 }] : List Loan).map Loan.toRaw) = .ok rep ∧
      rep.summary.total_debt = .fin (([{ name := "A", principal := 2, rate := 5, min_payment := 1 },
       { name := "B", principal := 2, rate := 5, min_payment := 1 }] : List Loan).map fun l => l.principal).sum ∧
      rep.summary.total_monthly_interest =
        .fin (([{ name := "A", principal := 2, rate := 5, min_payment := 1 },
       { name := "B", principal := 2, rate := 5, min_payment := 1 }] : List Loan).map fun l =>
          round2q (l.principal * (l.rate / 100) / 12)).sum) :=
  ⟨by decide, C6_totals ([{ name := "A", principal := 2, rate := 5, min_payment := 1 },
       { name := "B", principal := 2, rate := 5, min_payment := 1 }] : List Loan) (by decide)⟩

/-- Witness for C7 at two loans with identical columns. -/
theorem C7_extremal_names_witness :
    (([{ name := "A", principal := 2, rate := 5, min_payment := 1 },
       { name := "B", principal := 2, rate := 5, min_payment := 1 }] : List Loan) ≠ []) ∧
    (∃ rep : Report, analyze (([{ name := "A", principal := 2, rate := 5, min_payment := 1 },
       { name := "B", principal := 2, rate := 5, min_payment := 1 }] : List Loan).map Loan.toRaw) = .ok rep ∧
      (∃ (n : Nat) (ln : Loan), ([{ name := "A", principal := 2, rate := 5, min_payment := 1 },
       { name := "B", principal := 2, rate := 5, min_payment := 1 }] : List Loan)[n]? = some ln ∧
        rep.summary.highest_interest_loan = some ln.name ∧
        (∀ (m : Nat) (lm : Loan), ([{ name := "A", principal := 2, rate := 5, min_payment := 1 },
       { name := "B", principal := 2, rate := 5, min_payment := 1 }] : List Loan)[m]? = some lm →
          lm.rate ≤ ln.rate) ∧
        (∀ (m : Nat) (lm : Loan), m < n → ([{ name := "A", principal := 2, rate := 5, min_payment := 1 },
       { name := "B", principal := 2, rate := 5, min_payment := 1 }] : List Loan)[m]? = some lm →
          lm.rate < ln.rate)) ∧
      (∃ (n : Nat) (ln : Loan), ([{ name := "A", principal := 2, rate := 5, min_payment := 1 },
       { name := "B", principal := 2, rate := 5, min_payment := 1 }] : List Loan)[n]? = some ln ∧
        rep.summary.smallest_balance_loan = some ln.name ∧
        (∀ (m : Nat) (lm : Loan), ([{ name := "A", principal := 2, rate := 5, min_payment := 1 },
       { name := "B", principal := 2, rate := 5, min_payment := 1 }] : List Loan)[m]? = some lm →
          ln.principal ≤ lm.principal) ∧
        (∀ (m : Nat) (lm : Loan), m < n → ([{ name := "A", principal := 2, rate := 5, min_payment := 1 },
       { name := "B", principal := 2, rate := 5, min_payment := 1 }] : List Loan)[m]? = some lm →
          ln.principal < lm.principal)) ∧
      (∃ (n : Nat) (ln : Loan), ([{ name := "A", principal := 2, rate := 5, min_payment := 1 },
       { name := "B", principal := 2, rate := 5, min_payment := 1 }] : List Loan)[n]? = some ln ∧
        rep.summary.most_expensive_loan = some ln.name ∧
        (∀ (m : Nat) (lm : Loan), ([{ name := "A", principal := 2, rate := 5, min_payment := 1 },
       { name := "B", principal := 2, rate := 5, min_payment := 1 }] : List Loan)[m]? = some lm →
          monthlyQ lm ≤ monthlyQ ln) ∧
        (∀ (m : Nat) (lm : Loan), m < n → ([{ name := "A", principal := 2, rate := 5, min_payment := 1 },
       { name := "B", principal := 2, rate := 5, min_payment := 1 }] : List Loan)[m]? = some lm →
          monthlyQ lm < monthlyQ ln))) :=
  ⟨by decide, C7_extremal_names ([{ name := "A", principal := 2, rate := 5, min_payment := 1 },
       { name := "B", principal := 2, rate := 5, min_payment := 1 }] : List Loan) (by decide)⟩

/-- Witness for C9 at two loans with identical columns. -/
theorem C9_monthly_interest_witness :
    (([{ name := "A", principal := 2, rate := 5, min_payment := 1 },
       { name := "B", principal := 2, rate := 5, min_payment := 1 }] : List Loan) ≠ []) ∧
    (∃ rep : Report, analyze (([{ name := "A", principal := 2, rate := 5, min_payment := 1 },
       { name := "B", principal := 2, rate := 5, min_payment := 1 }] : List Loan).map Loan.toRaw) = .ok rep ∧
      (∀ (n : Nat) (l : Loan), ([{ name := "A", principal := 2, rate := 5, min_payment := 1 },
       { name := "B", principal := 2, rate := 5, min_payment := 1 }] : List Loan)[n]? = some l →
        ∃ r ∈ rep.avalanche_method, r.idx = n) ∧
      (∀ r ∈ rep.avalanche_method, ∀ l : Loan, ([{ name := "A", principal := 2, rate := 5, min_payment := 1 },
       { name := "B", principal := 2, rate := 5, min_payment := 1 }] : List Loan)[r.idx]? = some l →
        r.monthly_interest = .fin (round2q (l.principal * (l.rate / 100) / 12))) ∧
      (∀ r ∈ rep.snowball_method, ∀ l : Loan, ([{ name := "A", principal := 2, rate := 5, min_payment := 1 },
       { name := "B", principal := 2, rate := 5, min_payment := 1 }] : List Loan)[r.idx]? = some l →
        r.monthly_interest = .fin (round2q (l.principal * (l.rate / 100) / 12))) ∧
      (∀ r ∈ rep.balanced_method, ∀ l : Loan, ([{ name := "A", principal := 2, rate := 5, min_payment := 1 },
       { name := "B", principal := 2, rate := 5, min_payment := 1 }] : List Loan)[r.idx]? = some l →
        r.monthly_interest = .fin (round2q (l.principal * (l.rate / 100) / 12)))) :=
  ⟨by decide, C9_monthly_interest ([{ name := "A", principal := 2, rate := 5, min_payment := 1 },
       { name := "B", principal := 2, rate := 5, min_payment := 1 }] : List Loan) (by decide)⟩


/-- Witness for the amended C5 at a zero-principal loan (rate 1) alongside
a positive-principal loan. -/
theorem C5_zero_principal_witness :
    (([{ name := "Z", principal := 0, rate := 1, min_payment := 0 },
       { name := "P", principal := 2, rate := 1, min_payment := 1 }] : List Loan)[0]? = some ({ name := "Z", principal := 0, rate := 1, min_payment := 0 } : Loan)) ∧
    (Loan.principal ({ name := "Z", principal := 0, rate := 1, min_payment := 0 } : Loan) = 0) ∧
    (∃ rep : Report, analyze (([{ name := "Z", principal := 0, rate := 1, min_payment := 0 },
       { name := "P", principal := 2, rate := 1, min_payment := 1 }] : List Loan).map Loan.toRaw) = .ok rep ∧
      (∃ r ∈ rep.avalanche_method, r.idx = 0) ∧
      (∃ r ∈ rep.snowball_method, r.idx = 0) ∧
      (∃ r ∈ rep.balanced_method, r.idx = 0) ∧
      (∀ r ∈ rep.avalanche_method, ∀ l : Loan, ([{ name := "Z", principal := 0, rate := 1, min_payment := 0 },
       { name := "P", principal := 2, rate := 1, min_payment := 1 }] : List Loan)[r.idx]? = some l →
        r = computeRow r.idx l.toRaw ∧
        (l.principal = 0 →
          pfIsFinite r.interest_principal_ratio = false ∧
          bsIsFinite r.balanced_score = false) ∧
        (0 < l.principal →
          pfIsFinite r.interest_principal_ratio = true ∧
          bsIsFinite r.balanced_score = true ∧
          pfIsFinite r.monthly_interest = true))) :=
  ⟨by decide, by decide,
    C5_zero_principal ([{ name := "Z", principal := 0, rate := 1, min_payment := 0 },
       { name := "P", principal := 2, rate := 1, min_payment := 1 }] : List Loan) 0 ({ name := "Z", principal := 0, rate := 1, min_payment := 0 } : Loan) (by decide) (by decide)⟩

/-- Witness for the amended C10 at a positive-principal loan at input
position 0 and a zero-principal, positive-rate loan at input position 1. -/
theorem C10_zero_principal_last_witness :
    (([{ name := "P", principal := 2, rate := 1, min_payment := 1 },
       { name := "Z", principal := 0, rate := 1, min_payment := 0 }] : List Loan)[1]? = some ({ name := "Z", principal := 0, rate := 1, min_payment := 0 } : Loan)) ∧
    (([{ name := "P", principal := 2, rate := 1, min_payment := 1 },
       { name := "Z", principal := 0, rate := 1, min_payment := 0 }] : List Loan)[0]? = some ({ name := "P", principal := 2, rate := 1, min_payment := 1 } : Loan)) ∧
    (Loan.principal ({ name := "Z", principal := 0, rate := 1, min_payment := 0 } : Loan) = 0) ∧
    (0 ≤ Loan.rate ({ name := "Z", principal := 0, rate := 1, min_payment := 0 } : Loan)) ∧
    (0 < Loan.principal ({ name := "P", principal := 2, rate := 1, min_payment := 1 } : Loan)) ∧
    (∃ rep : Report, analyze (([{ name := "P", principal := 2, rate := 1, min_payment := 1 },
       { name := "Z", principal := 0, rate := 1, min_payment := 0 }] : List Loan).map Loan.toRaw) = .ok rep ∧
      posOf 0 rep.balanced_method < posOf 1 rep.balanced_method ∧
      (0 < Loan.rate ({ name := "Z", principal := 0, rate := 1, min_payment := 0 } : Loan) →
        (computeRow 1 (Loan.toRaw ({ name := "Z", principal := 0, rate := 1, min_payment := 0 } : Loan))).balanced_score = .negInf) ∧
      (Loan.rate ({ name := "Z", principal := 0, rate := 1, min_payment := 0 } : Loan) = 0 →
        (computeRow 1 (Loan.toRaw ({ name := "Z", principal := 0, rate := 1, min_payment := 0 } : Loan))).balanced_score = .nan)) :=
  ⟨by decide, by decide, by decide, by decide, by decide,
    C10_zero_principal_last ([{ name := "P", principal := 2, rate := 1, min_payment := 1 },
       { name := "Z", principal := 0, rate := 1, min_payment := 0 }] : List Loan) 1 0 ({ name := "Z", principal := 0, rate := 1, min_payment := 0 } : Loan) ({ name := "P", principal := 2, rate := 1, min_payment := 1 } : Loan)
      (by decide) (by decide) (by decide) (by decide) (by decide)⟩
